import Mathlib

/-!
# Mython: lexer and runtime value core

A shallow embedding of `lexer.h` / `lexer.cpp` (namespace `parse`) and of
`runtime.h` / `runtime.cpp` (namespace `runtime`), followed by theorems about
the embedded functions.

Conventions of the embedding.

* A byte is a `Char`; a byte string is a `List Char` (stream contents) or a
  `String` (token and object payloads).
* The `std::istream&` of the lexer is the record `IStream`: the bytes still to
  be read together with the `eofbit` and `failbit` state flags.  The members
  used by the lexer (`peek`, `get`, `putback`, `operator>>` into `char` and
  into `int`) are modelled after the C++ standard library (sentry, flag
  updates).  Nothing in the lexer ever calls `clear()`, and every `putback` it
  performs on a good stream returns the byte that was extracted last, so a
  `putback` simply puts that byte in front of the remaining bytes.
* A member function that mutates `*this` takes the object and returns the new
  object; a function that may throw returns an `Except` next to the state the
  object is left in.
* `int` values are `Int`/`Nat`.  `current_indent_` and the space counter would
  need an input of more than 2^31 bytes to overflow.
* A template argument `T` that names a token alternative (`Expect<T>`) is the
  index of the alternative in the variant `TokenBase`, as `index()` returns it.
* An `ObjectHolder` is `none` when empty.  On an object without mutable
  members it carries the value of the object; on a `ClassInstance` it carries
  the class and the address of the instance, and the `fields_` of the
  instances are kept in the `State`, by address.  So `Share(*this)` is a
  holder on the same instance as any other holder on it, and what a method
  body does to the fields of `self` is there for every later call.  Reference
  counts are not represented.
* A method body is a handle, and the evaluator of bodies
  (`Executable::Execute`, external to the core) is a parameter; it takes and
  returns the `State` (the context and the fields of the instances), so a
  body may have effects.
* The loops of the source are recursive functions over an iteration bound
  (every iteration extracts one byte, so the number of remaining bytes plus
  one is never exhausted); the recursion of `ReadToken` returns `none` when
  its bound is exhausted, and is shown never to do so.
-/

namespace Mython

/-! ## Character classes of `<cctype>` in the "C" locale -/

/-- The function `isdigit`. -/
def isdigit (c : Char) : Bool := decide ('0' ≤ c ∧ c ≤ '9')

/-- The function `isalpha`: ASCII letters. -/
def isalpha (c : Char) : Bool :=
  decide (('a' ≤ c ∧ c ≤ 'z') ∨ ('A' ≤ c ∧ c ≤ 'Z'))

/-- The function `isspace`: space, `\t`, `\n`, `\v`, `\f`, `\r`. -/
def isspace (c : Char) : Bool :=
  decide (c = ' ' ∨ (Char.ofNat 9 ≤ c ∧ c ≤ Char.ofNat 13))

/-- The `char` obtained from the `int` returned by `peek()` / `get()`:
`EOF` is `-1` and converts to the byte `0xFF`. -/
def toChar : Option Char → Char
  | some c => c
  | none => Char.ofNat 255

/-! ## The input stream -/

/-- State of a `std::istream`: remaining bytes and state flags. -/
structure IStream where
  data : List Char
  eofbit : Bool
  failbit : Bool
deriving DecidableEq, Repr

namespace IStream

/-- A fresh `std::istringstream` over `input`. -/
def ofInput (input : List Char) : IStream := ⟨input, false, false⟩

/-- The member `good()`. -/
def good (s : IStream) : Bool := !s.eofbit && !s.failbit

/-- The member `peek()`: `none` is `EOF`.  On a stream that is not good the
sentry sets `failbit`; at the end of the bytes `eofbit` is set. -/
def peek (s : IStream) : Option Char × IStream :=
  if s.good then
    match s.data with
    | [] => (none, { s with eofbit := true })
    | c :: _ => (some c, s)
  else (none, { s with failbit := true })

/-- The members `get()` and `get(char&)`: extract one byte; `none` is failure
(`EOF`), which sets `failbit` (and `eofbit` at the end of the bytes). -/
def get (s : IStream) : Option Char × IStream :=
  if s.good then
    match s.data with
    | [] => (none, { s with eofbit := true, failbit := true })
    | c :: rest => (some c, { s with data := rest })
  else (none, { s with failbit := true })

/-- The member `putback(c)`: clears `eofbit`, then, when the stream is good,
makes `c` the next byte; on a failed stream nothing else happens. -/
def putback (s : IStream) (c : Char) : IStream :=
  if s.failbit then { s with eofbit := false }
  else { s with eofbit := false, data := c :: s.data }

/-- The sentry of a formatted input function (`skipws` is set): on a good
stream skip white space; returns whether input may proceed. -/
def sentry (s : IStream) : Bool × IStream :=
  if s.good then
    match s.data.dropWhile isspace with
    | [] => (false, { data := [], eofbit := true, failbit := true })
    | c :: rest => (true, { s with data := c :: rest })
  else (false, { s with failbit := true })

/-- The extractor `operator>>(char&)`: skips white space, then extracts one
byte; `none` is failure. -/
def extractChar (s : IStream) : Option Char × IStream :=
  match s.sentry with
  | (true, s1) =>
    match s1.data with
    | [] => (none, { s1 with eofbit := true, failbit := true })
    | c :: rest => (some c, { s1 with data := rest })
  | (false, s1) => (none, s1)

/-- Decimal value of a run of digits. -/
def digitsValue (ds : List Char) : Nat :=
  ds.foldl (fun acc d => 10 * acc + (d.toNat - '0'.toNat)) 0

/-- The extractor `operator>>(int&)` at an unsigned decimal literal (the lexer
calls it only when the next byte is a digit): skips white space, consumes the
maximal run of digits; a value above `INT_MAX` is stored as `INT_MAX` with
`failbit`; no digit at all stores `0` with `failbit`; reaching the end of the
bytes sets `eofbit`.  Returns the value stored into the `int`, if any. -/
def extractInt (s : IStream) : Option Int × IStream :=
  match s.sentry with
  | (true, s1) =>
    let ds := s1.data.takeWhile isdigit
    let rest := s1.data.dropWhile isdigit
    let s2 : IStream := { s1 with data := rest, eofbit := rest.isEmpty }
    if ds.isEmpty then (some 0, { s2 with failbit := true })
    else if digitsValue ds > 2147483647 then (some 2147483647, { s2 with failbit := true })
    else (some (digitsValue ds : Int), s2)
  | (false, s1) => (none, s1)

end IStream

/-! ## Tokens (`lexer.h`) -/

/-- The variant `parse::Token`. -/
inductive Token where
  | Number (value : Int)
  | Id (value : String)
  | Char (value : Char)
  | String (value : String)
  | Class | Return | If | Else | Def | Newline | Print | Indent | Dedent
  | And | Or | Not | Eq | NotEq | LessOrEq | GreaterOrEq
  | None | True | False | Eof
deriving DecidableEq, Repr

/-- The payload of a value-bearing token (`int`, `std::string` or `char`). -/
inductive TokenValue where
  | int (v : Int)
  | string (v : String)
  | char (v : Char)
deriving DecidableEq, Repr

namespace Token

/-- The member `index()` of the variant: the position of the alternative in
`TokenBase`. -/
def index : Token → Nat
  | .Number _ => 0 | .Id _ => 1 | .Char _ => 2 | .String _ => 3
  | .Class => 4 | .Return => 5 | .If => 6 | .Else => 7 | .Def => 8 | .Newline => 9
  | .Print => 10 | .Indent => 11 | .Dedent => 12 | .And => 13 | .Or => 14 | .Not => 15
  | .Eq => 16 | .NotEq => 17 | .LessOrEq => 18 | .GreaterOrEq => 19
  | .None => 20 | .True => 21 | .False => 22 | .Eof => 23

/-- The member `value` of the alternative held by the token, when it has one. -/
def value : Token → Option TokenValue
  | .Number v => some (.int v)
  | .Id v => some (.string v)
  | .Char v => some (.char v)
  | .String v => some (.string v)
  | _ => none

/-- The free function `parse::operator==` on tokens.  `As<T>()` is applied to
both sides only after `lhs.index() == rhs.index()` and `lhs.Is<T>()`, so it
cannot throw; the model compares the payloads of the two alternatives. -/
def operatorEq (lhs rhs : Token) : Bool :=
  if lhs.index ≠ rhs.index then false
  else if lhs.index = 2 then decide (lhs.value = rhs.value)
  else if lhs.index = 0 then decide (lhs.value = rhs.value)
  else if lhs.index = 3 then decide (lhs.value = rhs.value)
  else if lhs.index = 1 then decide (lhs.value = rhs.value)
  else true

/-- The free function `parse::operator!=` on tokens. -/
def operatorNe (lhs rhs : Token) : Bool := !operatorEq lhs rhs

end Token

/-- The exception `parse::LexerError` with its message. -/
structure LexerError where
  what : String
deriving DecidableEq, Repr

deriving instance DecidableEq for Except

/-! ## The lexer (`lexer.cpp`) -/

/-- Data members of `parse::Lexer` (`eof_` is the constant `Token.Eof`). -/
structure Lexer where
  tokens_ : List Token
  input_ : IStream
  current_indent_ : Int
deriving DecidableEq, Repr

namespace Lexer

/-- The call `tokens_.back()`. -/
def back (l : Lexer) : Token := l.tokens_.getLastD Token.Eof

/-- The member `Lexer::CurrentToken`. -/
def CurrentToken (l : Lexer) : Token :=
  if l.tokens_.isEmpty then Token.Eof else l.back

/-- The call `tokens_.push_back(t)`. -/
def push (l : Lexer) (t : Token) : Lexer := { l with tokens_ := l.tokens_ ++ [t] }

/-- The loop `for (; input_.peek() == ' '; ++counter) input_.get();`. -/
def CalculateIndent.loop : Nat → IStream → Nat → Nat × IStream
  | 0, s, counter => (counter, s)
  | fuel + 1, s, counter =>
    match s.peek with
    | (some c, s1) =>
      if c = ' ' then CalculateIndent.loop fuel s1.get.2 (counter + 1) else (counter, s1)
    | (none, s1) => (counter, s1)

/-- The loop `for (int i = 0; i < counter; ++i) input_.putback(' ');`. -/
def CalculateIndent.putbackLoop : Nat → IStream → IStream
  | 0, s => s
  | n + 1, s => CalculateIndent.putbackLoop n (s.putback ' ')

/-- The member `Lexer::CalculateIndent`. -/
def CalculateIndent (l : Lexer) : Except LexerError Bool × Lexer :=
  let (counter, inp) := CalculateIndent.loop (l.input_.data.length + 1) l.input_ 0
  let l1 : Lexer := { l with input_ := inp }
  let diff : Int := (counter : Int) - l1.current_indent_
  if diff = 0 then (.ok false, l1)
  else if diff.tmod 2 = 0 ∧ diff > 0 then
    let l2 : Lexer := { l1.push Token.Indent with current_indent_ := l1.current_indent_ + 2 }
    (.ok true, { l2 with input_ := CalculateIndent.putbackLoop counter l2.input_ })
  else if diff.tmod 2 = 0 ∧ diff < 0 then
    let l2 : Lexer := { l1.push Token.Dedent with current_indent_ := l1.current_indent_ - 2 }
    (.ok true, { l2 with input_ := CalculateIndent.putbackLoop counter l2.input_ })
  else (.error ⟨"Indents are not even"⟩, l1)

/-- The member `Lexer::AddNumber`.  When the extraction stores nothing the
`int` keeps an indeterminate value, rendered as `0`; this needs a stream that
is not good, and `AddNumber` is called right after `peek()` saw a digit. -/
def AddNumber (l : Lexer) : Lexer :=
  let (num, inp) := l.input_.extractInt
  { l with input_ := inp }.push (Token.Number (num.getD 0))

/-- The loop of `Lexer::AddString`:
`input_.get(c) && ((beg == '\'' && c != '\'') || (beg == '\"' && c != '\"'))`
with body `str.push_back(c)`. -/
def AddString.loop (beg : Char) : Nat → IStream → List Char → List Char × IStream
  | 0, s, str => (str, s)
  | fuel + 1, s, str =>
    match s.get with
    | (some c, s1) =>
      if (beg = '\'' ∧ c ≠ '\'') ∨ (beg = '"' ∧ c ≠ '"') then
        AddString.loop beg fuel s1 (str ++ [c])
      else (str, s1)
    | (none, s1) => (str, s1)

/-- The member `Lexer::AddString`. -/
def AddString (l : Lexer) : Lexer :=
  let (b, s1) := l.input_.get
  let (str, s2) := AddString.loop (toChar b) (s1.data.length + 1) s1 []
  { l with input_ := s2 }.push (Token.String (String.mk str))

/-- The member `Lexer::AddDoubleChar`.  When `input_ >> next` fails, `next`
is indeterminate (rendered as the zero byte) and the stream has `failbit`, so
`putback(next)` puts nothing back. -/
def AddDoubleChar (l : Lexer) : Lexer :=
  let (c0, s1) := l.input_.get
  let c := toChar c0
  let (next, s2) := s1.extractChar
  let l1 : Lexer := { l with input_ := s2 }
  if next = some '=' then
    let l2 := if c = '=' then l1.push Token.Eq else l1
    let l3 := if c = '<' then l2.push Token.LessOrEq else l2
    let l4 := if c = '>' then l3.push Token.GreaterOrEq else l3
    if c = '!' then l4.push Token.NotEq else l4
  else
    { l1 with input_ := s2.putback (next.getD (Char.ofNat 0)) }.push (Token.Char c)

/-- The loop of `Lexer::AddKeywordOrId`:
`while (input_.get(c) && (isdigit(c) || isalpha(c) || c == '_')) keyword.push_back(c);`
returning `keyword`, the final `c` and the stream. -/
def AddKeywordOrId.loop : Nat → IStream → Char → List Char → List Char × Char × IStream
  | 0, s, c, keyword => (keyword, c, s)
  | fuel + 1, s, c, keyword =>
    match s.get with
    | (some c1, s1) =>
      if isdigit c1 || isalpha c1 || c1 = '_' then
        AddKeywordOrId.loop fuel s1 c1 (keyword ++ [c1])
      else (keyword, c1, s1)
    | (none, s1) => (keyword, c, s1)

/-- The `if` / `else if` chain of `Lexer::AddKeywordOrId`. -/
def keywordToken (keyword : String) : Token :=
  if keyword = "class" then Token.Class
  else if keyword = "if" then Token.If
  else if keyword = "else" then Token.Else
  else if keyword = "or" then Token.Or
  else if keyword = "and" then Token.And
  else if keyword = "not" then Token.Not
  else if keyword = "True" then Token.True
  else if keyword = "False" then Token.False
  else if keyword = "None" then Token.None
  else if keyword = "return" then Token.Return
  else if keyword = "def" then Token.Def
  else if keyword = "print" then Token.Print
  else Token.Id keyword

/-- The member `Lexer::AddKeywordOrId` (`char c;` starts indeterminate,
rendered as the zero byte). -/
def AddKeywordOrId (l : Lexer) : Lexer :=
  let (keyword, c, s1) :=
    AddKeywordOrId.loop (l.input_.data.length + 1) l.input_ (Char.ofNat 0) []
  { l with input_ := s1.putback c }.push (keywordToken (String.mk keyword))

/-- The loop of `Lexer::RemoveSpaces`: `while (input_.get(c) && isspace(c));`. -/
def RemoveSpaces.loop : Nat → IStream → Char → Char × IStream
  | 0, s, c => (c, s)
  | fuel + 1, s, c =>
    match s.get with
    | (some c1, s1) => if isspace c1 then RemoveSpaces.loop fuel s1 c1 else (c1, s1)
    | (none, s1) => (c, s1)

/-- The member `Lexer::RemoveSpaces`. -/
def RemoveSpaces (l : Lexer) : Lexer :=
  let (c, s1) := RemoveSpaces.loop (l.input_.data.length + 1) l.input_ (Char.ofNat 0)
  { l with input_ := s1.putback c }

/-- The member `Lexer::AddNewline`. -/
def AddNewline (l : Lexer) : Lexer :=
  { l with input_ := l.input_.get.2 }.push Token.Newline

/-- The member `Lexer::AddChar`. -/
def AddChar (l : Lexer) (c : Char) : Lexer :=
  { l with input_ := l.input_.get.2 }.push (Token.Char c)

/-- Lines 185 to 193 of `Lexer::ReadToken`: the dispatch on the next byte.
The argument `again` is the recursive call `ReadToken()`. -/
def ReadToken.dispatch (again : Lexer → Option (Except LexerError Bool × Lexer))
    (l1 : Lexer) : Option (Except LexerError Bool × Lexer) :=
  let c := toChar l1.input_.peek.1
  let l2 : Lexer := { l1 with input_ := l1.input_.peek.2 }
  if !l2.tokens_.isEmpty ∧ c = '\n' then some (.ok true, l2.AddNewline)
  else if isalpha c ∨ c = '_' then some (.ok true, l2.AddKeywordOrId)
  else if isdigit c then some (.ok true, l2.AddNumber)
  else if c = '\'' ∨ c = '"' then some (.ok true, l2.AddString)
  else if isspace c then again l2.RemoveSpaces
  else if c = '=' ∨ c = '<' ∨ c = '>' ∨ c = '!' then some (.ok true, l2.AddDoubleChar)
  else some (.ok true, l2.AddChar c)

/-- The member `Lexer::ReadToken` with a bound on the depth of its recursion;
`none` means that the bound was exhausted.  Lines 181 to 183 are spelled out
here, the rest is `ReadToken.dispatch`. -/
def ReadToken.go : Nat → Lexer → Option (Except LexerError Bool × Lexer)
  | 0, _ => none
  | fuel + 1, l =>
    match l.input_.peek with
    | (none, s0) => some (.ok false, { l with input_ := s0 })
    | (some _, s0) =>
      let l0 : Lexer := { l with input_ := s0 }
      let r : Except LexerError Bool × Lexer :=
        if l0.CurrentToken = Token.Newline ∨ l0.CurrentToken = Token.Dedent then
          l0.CalculateIndent
        else (.ok false, l0)
      match r with
      | (.error e, l1) => some (.error e, l1)
      | (.ok true, l1) => some (.ok true, l1)
      | (.ok false, l1) => ReadToken.dispatch (fun l2 => ReadToken.go fuel l2) l1

/-- The member `Lexer::ReadToken`.  The bound is never exhausted
(`ReadToken_go_eq`), so the default is never taken. -/
def ReadToken (l : Lexer) : Except LexerError Bool × Lexer :=
  (ReadToken.go (l.input_.data.length + 2) l).getD (.ok false, l)

/-- The member `Lexer::NextToken`. -/
def NextToken (l : Lexer) : Except LexerError Token × Lexer :=
  match l.ReadToken with
  | (.ok added_token, l1) => (.ok (if added_token then l1.back else Token.Eof), l1)
  | (.error e, l1) => (.error e, l1)

/-- The member template `Lexer::Expect<T>()`; the alternative `T` is given by
its index in `TokenBase`.  Returns the current token (a `T`) or throws, next
to the object, which the `const` member leaves as it is. -/
def Expect (T : Nat) (l : Lexer) : Except LexerError Token × Lexer :=
  let current_token := l.CurrentToken
  if current_token.index = T then (.ok current_token, l)
  else (.error ⟨"Wrong expected type for current token"⟩, l)

/-- The member template `Lexer::Expect<T, U>(value)`. -/
def ExpectValue (T : Nat) (value : TokenValue) (l : Lexer) : Except LexerError Unit × Lexer :=
  match l.Expect T with
  | (.ok expected_token, l1) =>
    if expected_token.value ≠ some value then
      (.error ⟨"Wrong expected value for current token"⟩, l1)
    else (.ok (), l1)
  | (.error e, l1) => (.error e, l1)

/-- The member template `Lexer::ExpectNext<T>()`. -/
def ExpectNext (T : Nat) (l : Lexer) : Except LexerError Token × Lexer :=
  match l.NextToken with
  | (.ok _, l1) => l1.Expect T
  | (.error e, l1) => (.error e, l1)

/-- The member template `Lexer::ExpectNext<T, U>(value)`. -/
def ExpectNextValue (T : Nat) (value : TokenValue) (l : Lexer) :
    Except LexerError Unit × Lexer :=
  match l.NextToken with
  | (.ok _, l1) => l1.ExpectValue T value
  | (.error e, l1) => (.error e, l1)

/-- The members after the member initialisers of the constructor, before its
body runs: `input_{input}`, an empty `tokens_`, `current_indent_ = 0`. -/
def start (input : List Char) : Lexer :=
  { tokens_ := [], input_ := IStream.ofInput input, current_indent_ := 0 }

/-- The constructor `Lexer::Lexer(istream&)` on a stream holding `input`: its
body is one `ReadToken` call.  That call cannot throw (`new_does_not_throw`:
`tokens_` is empty, so `CalculateIndent` is not reached); the state component
is the constructed object. -/
def new (input : List Char) : Lexer :=
  (ReadToken (start input)).2

/-- The lexer after `n` further `NextToken` calls. -/
def after : Nat → Lexer → Lexer
  | 0, l => l
  | n + 1, l => after n l.NextToken.2

/-- Tokens returned by `n` successive `NextToken` calls, and the final state. -/
def run : Nat → Lexer → List (Except LexerError Token) × Lexer
  | 0, l => ([], l)
  | n + 1, l =>
    let (r, l1) := l.NextToken
    let (rs, l2) := run n l1
    (r :: rs, l2)

end Lexer

/-! ## Runtime values (`runtime.h`, `runtime.cpp`) -/

/-- Handle of an `Executable` (a method body).  Bodies are built and evaluated
outside the core; the functions below take the evaluator of `Execute` as a
parameter. -/
structure Executable where
  handle : Nat
deriving DecidableEq, Repr

/-- The struct `runtime::Method`. -/
structure Method where
  name : String
  formal_params : List String
  body : Executable
deriving DecidableEq, Repr

/-- The class `runtime::Class`: name, own methods, optional parent. -/
inductive Class where
  | mk (name_ : String) (methods_ : List Method) (parent_ : Option Class)

/-- What a holder that is not empty points to.  The objects without mutable
members (`Number`, `String`, `Bool`, `Class`) are given by their value;
`ValueObjectBool` is a `ValueObject<bool>` whose dynamic type is not `Bool`.
A `ClassInstance` object is given by its member `class_` (a `const Class&`,
fixed by the constructor) and by its address: its mutable member `fields_` is
part of the `State`, so every holder on the instance sees the same fields. -/
inductive Object where
  | Number (value : Int)
  | String (value : String)
  | Bool (value : Bool)
  | ValueObjectBool (value : Bool)
  | Class (cls : Class)
  | ClassInstance (class_ : Class) (address : Nat)

/-- The class `runtime::ObjectHolder`: `none` is the empty holder. -/
abbrev ObjectHolder := Option Object

/-- The map `runtime::Closure`. -/
abbrev Closure := List (String × ObjectHolder)

/-- The assignment `closure[key] = value`. -/
def Closure.assign : Closure → String → ObjectHolder → Closure
  | [], key, value => [(key, value)]
  | (k, v) :: rest, key, value =>
    if k = key then (k, value) :: rest else (k, v) :: Closure.assign rest key value

/-- The class `runtime::Context`, reduced to the text written to its stream. -/
structure Context where
  output : String
deriving DecidableEq, Repr

/-- The mutable state that the runtime functions reach through their
arguments: the `Context&` they are given, and the member `fields_` of each
`ClassInstance` object, by the address of the object.  A function of the
source that takes `Context& context` takes the state and returns it. -/
structure State where
  context : Context
  fields_ : Nat → Closure

/-- The ways a runtime function can fail: a thrown `std::runtime_error`, or the
dereference of a null pointer (undefined behaviour in the source). -/
inductive Failure where
  | runtime_error (what : String)
  | null_dereference
deriving DecidableEq, Repr

/-- Type of the evaluator of method bodies, `Executable::Execute`: run on a
closure in a state, a body returns a holder or throws, and leaves a state (it
may write to the context and change the fields of the instances it reaches,
those of `self` among them). -/
abbrev Evaluator := Executable → Closure → State → Except Failure ObjectHolder × State

namespace ObjectHolder

/-- The call `TryAs<Number>()` followed by `GetValue()`. -/
def TryAsNumber : ObjectHolder → Option Int
  | some (.Number v) => some v
  | _ => none

/-- The call `TryAs<String>()` followed by `GetValue()`. -/
def TryAsString : ObjectHolder → Option String
  | some (.String v) => some v
  | _ => none

/-- The call `TryAs<Bool>()` followed by `GetValue()`. -/
def TryAsBool : ObjectHolder → Option Bool
  | some (.Bool v) => some v
  | _ => none

/-- The call `TryAs<ClassInstance>()`: the class and the address of the
instance. -/
def TryAsClassInstance : ObjectHolder → Option (Class × Nat)
  | some (.ClassInstance class_ address) => some (class_, address)
  | _ => none

end ObjectHolder

/-- The member `Class::GetMethod`. -/
def Class.GetMethod : Class → String → Option Method
  | .mk _ methods_ parent_, name =>
    match methods_.find? (fun method => method.name = name) with
    | some method => some method
    | none =>
      match parent_ with
      | some parent => parent.GetMethod name
      | none => none

namespace ClassInstance

/-- The member `ClassInstance::HasMethod` of an instance of `class_`. -/
def HasMethod (class_ : Class) (method : String) (argument_count : Nat) : Bool :=
  match class_.GetMethod method with
  | some the_method => the_method.formal_params.length = argument_count
  | none => false

/-- The loop of `ClassInstance::Call` binding formal parameter `i` to actual
argument `i`. -/
def bindParams : Closure → List String → List ObjectHolder → Closure
  | cls, p :: ps, a :: as => bindParams (cls.assign p a) ps as
  | cls, _, _ => cls

/-- The member `ClassInstance::Call` of the instance of `class_` at `address`.
`ObjectHolder::Share(*this)` is a holder on that same instance. -/
def Call (Execute : Evaluator) (class_ : Class) (address : Nat) (method : String)
    (actual_args : List ObjectHolder) (context : State) :
    Except Failure ObjectHolder × State :=
  if !HasMethod class_ method actual_args.length then
    (.error (.runtime_error "Method not found"), context)
  else
    match class_.GetMethod method with
    | none => (.error .null_dereference, context)
    | some ptr_method =>
      let cls : Closure := Closure.assign [] "self" (some (.ClassInstance class_ address))
      Execute ptr_method.body (bindParams cls ptr_method.formal_params actual_args) context

end ClassInstance

/-- The expression `holder.TryAs<Bool>()->GetValue()` applied to the result of
a `Call`. -/
def boolResult : Except Failure ObjectHolder × State → Except Failure Bool × State
  | (.ok result, context) =>
    match result.TryAsBool with
    | some b => (.ok b, context)
    | none => (.error .null_dereference, context)
  | (.error e, context) => (.error e, context)

/-- The comparison `std::string::compare`: negative, zero or positive. -/
def stringCompare : List Char → List Char → Int
  | [], [] => 0
  | [], _ :: _ => -1
  | _ :: _, [] => 1
  | a :: as, b :: bs => if a < b then -1 else if b < a then 1 else stringCompare as bs

/-- The function `runtime::Equal`. -/
def Equal (Execute : Evaluator) (lhs rhs : ObjectHolder) (context : State) :
    Except Failure Bool × State :=
  match lhs.TryAsNumber, rhs.TryAsNumber with
  | some a, some b => (.ok (decide (a = b)), context)
  | _, _ =>
    match lhs.TryAsString, rhs.TryAsString with
    | some a, some b => (.ok (decide (a = b)), context)
    | _, _ =>
      match lhs.TryAsBool, rhs.TryAsBool with
      | some a, some b => (.ok (decide (a = b)), context)
      | _, _ =>
        match lhs.TryAsClassInstance with
        | some (class_, address) =>
          if ClassInstance.HasMethod class_ "__eq__" 1 then
            boolResult (ClassInstance.Call Execute class_ address "__eq__" [rhs] context)
          else if lhs.isNone ∧ rhs.isNone then (.ok true, context)
          else (.error (.runtime_error "Cannot compare objects for equality"), context)
        | none =>
          if lhs.isNone ∧ rhs.isNone then (.ok true, context)
          else (.error (.runtime_error "Cannot compare objects for equality"), context)

/-- The function `runtime::Less`. -/
def Less (Execute : Evaluator) (lhs rhs : ObjectHolder) (context : State) :
    Except Failure Bool × State :=
  match lhs.TryAsNumber, rhs.TryAsNumber with
  | some a, some b => (.ok (decide (a < b)), context)
  | _, _ =>
    match lhs.TryAsString, rhs.TryAsString with
    | some a, some b => (.ok (decide (stringCompare a.data b.data < 0)), context)
    | _, _ =>
      match lhs.TryAsBool, rhs.TryAsBool with
      | some a, some b => (.ok (decide (a < b)), context)
      | _, _ =>
        match lhs.TryAsClassInstance with
        | some (class_, address) =>
          if ClassInstance.HasMethod class_ "__lt__" 1 then
            boolResult (ClassInstance.Call Execute class_ address "__lt__" [rhs] context)
          else (.error (.runtime_error "Cannot compare objects for less"), context)
        | none => (.error (.runtime_error "Cannot compare objects for less"), context)

/-- The call `TryAs<ValueObject<bool>>()` followed by `GetValue()`; a `Bool`
is a `ValueObject<bool>` too. -/
def ObjectHolder.TryAsValueObjectBool : ObjectHolder → Option Bool
  | some (.Bool v) => some v
  | some (.ValueObjectBool v) => some v
  | _ => none

/-- The function `runtime::IsTrue`. -/
def IsTrue (object : ObjectHolder) : Bool :=
  match object.TryAsNumber with
  | some v => decide (v ≠ 0)
  | none =>
    match object.TryAsString with
    | some v => !v.data.isEmpty
    | none =>
      match object.TryAsBool with
      | some v => v
      | none =>
        match object.TryAsValueObjectBool with
        | some v => v
        | none => false

/-- The function `runtime::NotEqual`. -/
def NotEqual (Execute : Evaluator) (lhs rhs : ObjectHolder) (context : State) :
    Except Failure Bool × State :=
  match Equal Execute lhs rhs context with
  | (.ok eq, c1) => (.ok (!eq), c1)
  | (.error e, c1) => (.error e, c1)

/-- The function `runtime::Greater`: `!Less(...) && !Equal(...)`, evaluated
from left to right with short circuit; `Equal` is called in the state that
`Less` leaves. -/
def Greater (Execute : Evaluator) (lhs rhs : ObjectHolder) (context : State) :
    Except Failure Bool × State :=
  match Less Execute lhs rhs context with
  | (.ok true, c1) => (.ok false, c1)
  | (.ok false, c1) =>
    match Equal Execute lhs rhs c1 with
    | (.ok eq, c2) => (.ok (!eq), c2)
    | (.error e, c2) => (.error e, c2)
  | (.error e, c1) => (.error e, c1)

/-- The function `runtime::LessOrEqual`: `Less(...) || Equal(...)`, evaluated
from left to right with short circuit; `Equal` is called in the state that
`Less` leaves. -/
def LessOrEqual (Execute : Evaluator) (lhs rhs : ObjectHolder) (context : State) :
    Except Failure Bool × State :=
  match Less Execute lhs rhs context with
  | (.ok true, c1) => (.ok true, c1)
  | (.ok false, c1) =>
    match Equal Execute lhs rhs c1 with
    | (.ok eq, c2) => (.ok eq, c2)
    | (.error e, c2) => (.error e, c2)
  | (.error e, c1) => (.error e, c1)

/-- The function `runtime::GreaterOrEqual`. -/
def GreaterOrEqual (Execute : Evaluator) (lhs rhs : ObjectHolder) (context : State) :
    Except Failure Bool × State :=
  match Less Execute lhs rhs context with
  | (.ok lt, c1) => (.ok (!lt), c1)
  | (.error e, c1) => (.error e, c1)

/-- The member `ClassInstance::Print` of the instance of `class_` at
`address`.  The stream `os` is the text written so far; `shown` is the text
that `os << this` writes; `PrintObject` is the virtual `Print` of the object
returned by `__str__`.  Dereferencing an empty returned holder with `->` is a
null dereference. -/
def ClassInstance.Print (Execute : Evaluator)
    (PrintObject : Object → String → State → Except Failure String × State)
    (class_ : Class) (address : Nat) (shown : String) (os : String)
    (context : State) : Except Failure String × State :=
  match class_.GetMethod "__str__" with
  | some _ =>
    match ClassInstance.Call Execute class_ address "__str__" [] context with
    | (.ok (some object), c1) => PrintObject object os c1
    | (.ok none, c1) => (.error .null_dereference, c1)
    | (.error e, c1) => (.error e, c1)
  | none => (.ok (os ++ shown), context)

/-! ## Notions used to state the properties of the lexer -/

/-- Number of leading space bytes of a byte string. -/
def lead : List Char → Nat
  | [] => 0
  | c :: r => if c = ' ' then lead r + 1 else 0

/-- The byte string without its leading space bytes. -/
def dropSpaces : List Char → List Char
  | [] => []
  | c :: r => if c = ' ' then dropSpaces r else c :: r

/-- The class `[A-Za-z0-9_]`, the loop condition of `Lexer::AddKeywordOrId`. -/
def isword (c : Char) : Bool := isdigit c || isalpha c || c = '_'

/-- The stream after a `get(c)` loop followed by `putback(c)`, when `rest` is
what the loop left from its first rejected byte on: at the end of the bytes
the last `get` has failed and nothing is put back. -/
def IStream.resume : List Char → IStream
  | [] => ⟨[], false, true⟩
  | x :: r => ⟨x :: r, false, false⟩

/-- The token pushed by `Lexer::AddDoubleChar` in its `next == '='` branch, for
a first byte among `=`, `<`, `>`, `!`. -/
def Lexer.doubleToken (c : Char) : Token :=
  if c = '=' then Token.Eq
  else if c = '<' then Token.LessOrEq
  else if c = '>' then Token.GreaterOrEq
  else Token.NotEq

/-- The reserved words of the language with their tokens, as the
specification lists them. -/
def Lexer.reservedWords : List (String × Token) :=
  [("class", Token.Class), ("return", Token.Return), ("if", Token.If), ("else", Token.Else),
   ("def", Token.Def), ("print", Token.Print), ("and", Token.And), ("or", Token.Or),
   ("not", Token.Not), ("True", Token.True), ("False", Token.False), ("None", Token.None)]

/-- Number of bytes that can still be extracted from the stream. -/
def IStream.rem (s : IStream) : Nat := if s.good then s.data.length else 0

namespace Lexer

/-- The condition `CurrentToken().Is<Newline>() || CurrentToken().Is<Dedent>()`. -/
def atLineStart (l : Lexer) : Prop :=
  l.CurrentToken = Token.Newline ∨ l.CurrentToken = Token.Dedent

instance (l : Lexer) : Decidable l.atLineStart := by
  unfold atLineStart; infer_instance

/-- The step from `l` to `l2` appended exactly one token, which is none of
`Indent`, `Dedent`, `Eof`, kept `current_indent_` and extracted at least one byte. -/
def Emits (l l2 : Lexer) : Prop :=
  ∃ t, t ≠ Token.Indent ∧ t ≠ Token.Dedent ∧ t ≠ Token.Eof ∧ l2.tokens_ = l.tokens_ ++ [t] ∧
    l2.current_indent_ = l.current_indent_ ∧ l2.input_.rem < l.input_.rem

/-- The indentation invariant of a lexer state: `current_indent_` is even and
non-negative, and right after a `Dedent` the pending line is not indented
deeper than `current_indent_`. -/
def Inv (l : Lexer) : Prop :=
  l.current_indent_ % 2 = 0 ∧ 0 ≤ l.current_indent_ ∧
    (l.CurrentToken = Token.Dedent → l.input_.good = true →
      (lead l.input_.data : Int) ≤ l.current_indent_)

/-- The five things one `ReadToken` call can do to a state `l` satisfying
`Inv`: report the end of input, push `Indent`, push `Dedent`, push another
token, or throw. -/
inductive Step (l : Lexer) : Except LexerError Bool → Lexer → Prop
  | eof (l2 : Lexer) : l2.tokens_ = l.tokens_ → l2.current_indent_ = l.current_indent_ →
      l2.input_.good = false → Step l (.ok false) l2
  | indent (l2 : Lexer) : l2.tokens_ = l.tokens_ ++ [Token.Indent] →
      l2.current_indent_ = l.current_indent_ + 2 → l.CurrentToken = Token.Newline →
      l2.input_.rem ≤ l.input_.rem → Step l (.ok true) l2
  | dedent (l2 : Lexer) : l2.tokens_ = l.tokens_ ++ [Token.Dedent] →
      l2.current_indent_ = l.current_indent_ - 2 → 2 ≤ l.current_indent_ → l.atLineStart →
      l2.input_.rem ≤ l.input_.rem →
      (l2.input_.good = true → (lead l2.input_.data : Int) ≤ l2.current_indent_) →
      Step l (.ok true) l2
  | token (l2 : Lexer) : l.Emits l2 → Step l (.ok true) l2
  | raise (l2 : Lexer) : l2.tokens_ = l.tokens_ → l2.current_indent_ = l.current_indent_ →
      l.atLineStart → l2.input_.rem < l.input_.rem →
      (l2.input_.good = true → lead l2.input_.data = 0) → l.input_.good = true →
      ((lead l.input_.data : Int) - l.current_indent_) % 2 = 1 →
      Step l (.error ⟨"Indents are not even"⟩) l2

/-- States of a lexer object: the constructed object, and the object after
any further `NextToken` call (whether it returned or threw). -/
inductive Reachable : Lexer → Prop
  | init (input : List Char) : Reachable (Lexer.new input)
  | next {l : Lexer} : Reachable l → Reachable l.NextToken.2

/-- Number of `Indent` tokens minus number of `Dedent` tokens of a history. -/
def level (ts : List Token) : Int :=
  (ts.count Token.Indent : Int) - (ts.count Token.Dedent : Int)

/-- Placement of the indentation tokens in a history: an `Indent` directly
follows a `Newline`, a `Dedent` directly follows a `Newline` or a `Dedent`. -/
def Placed (ts : List Token) : Prop :=
  ∀ i : Nat,
    (ts[i]? = some Token.Indent → 0 < i ∧ ts[i - 1]? = some Token.Newline) ∧
    (ts[i]? = some Token.Dedent →
      0 < i ∧ (ts[i - 1]? = some Token.Newline ∨ ts[i - 1]? = some Token.Dedent))

/-- Termination measure of the sequence of `NextToken` calls. -/
def measure (l : Lexer) : Nat :=
  4 * l.input_.rem + l.current_indent_.toNat + (if l.atLineStart then 3 else 0)

/-- The effect of one `ReadToken` call with result `res` on the token history
and on `current_indent_`, in any state: a call that returns true has pushed
one token, which is not `Eof` and is `Newline` only if the history was not
empty; any other call leaves the history and `current_indent_` as they were;
after a call that returns false the stream is not good. -/
def Frame (l : Lexer) (res : Except LexerError Bool) (l2 : Lexer) : Prop :=
  (res = .ok true → ∃ t, t ≠ Token.Eof ∧ l2.tokens_ = l.tokens_ ++ [t] ∧
      (t = Token.Newline → l.tokens_ ≠ [])) ∧
    (res ≠ .ok true → l2.tokens_ = l.tokens_ ∧ l2.current_indent_ = l.current_indent_) ∧
    (res = .ok false → l2.input_.good = false)

end Lexer

/-! ## Notions used to state the properties of the runtime -/

/-- The member `methods_` of a class. -/
def Class.methods_ : Class → List Method
  | .mk _ methods_ _ => methods_

/-- The member `parent_` of a class. -/
def Class.parent_ : Class → Option Class
  | .mk _ _ parent_ => parent_

/-- The inheritance chain of a class: the class itself, its parent, and so on
up to the class without parent. -/
def Class.chain : Class → List Class
  | .mk name_ methods_ (some parent) => .mk name_ methods_ (some parent) :: parent.chain
  | .mk name_ methods_ none => [.mk name_ methods_ none]

/-- The closure the specification prescribes for a call: `self` bound to the
receiver, then each formal parameter bound to its argument, in order. -/
def ClassInstance.callClosure (receiver : ObjectHolder) (formal_params : List String)
    (actual_args : List ObjectHolder) : Closure :=
  (formal_params.zip actual_args).foldl (fun cls pa => cls.assign pa.1 pa.2)
    (Closure.assign [] "self" receiver)

/-- The state in which nothing has been written and no instance has a field. -/
def State.initial : State := ⟨⟨""⟩, fun _ => []⟩

/-- The state after the assignment `self.Fields()[key] = value` on the
instance at `address`. -/
def State.setField (state : State) (address : Nat) (key : String) (value : ObjectHolder) :
    State :=
  { state with
    fields_ := fun a =>
      if a = address then (state.fields_ a).assign key value else state.fields_ a }

/-- An instance of the evaluator `Executable::Execute`, which is external to
the core, for the examples: it knows three method bodies, run on a closure
that binds `self` to an instance: body 0 is
`self.flag = True; return False`, body 1 is `return self.flag` (with `False`
for a field that is not set), body 2 is `return self.missing()`, a call of a
method that no class of the examples has; anything else returns `None`. -/
def exampleExecute : Evaluator := fun body closure state =>
  match closure.lookup "self" with
  | some (some (.ClassInstance class_ address)) =>
    if body.handle = 0 then
      (.ok (some (.Bool false)), state.setField address "flag" (some (.Bool true)))
    else if body.handle = 1 then
      (.ok (((state.fields_ address).lookup "flag").getD (some (.Bool false))), state)
    else if body.handle = 2 then
      ClassInstance.Call (fun _ _ s => (.ok none, s)) class_ address "missing" [] state
    else (.ok none, state)
  | _ => (.ok none, state)

/-! ## The stream primitives -/

theorem IStream.good_iff (s : IStream) :
    s.good = true ↔ s.eofbit = false ∧ s.failbit = false := by
  cases s with
  | mk d e f => cases e <;> cases f <;> simp [IStream.good]

theorem IStream.eq_of_good {s : IStream} (h : s.good = true) :
    s = ⟨s.data, false, false⟩ := by
  cases s with
  | mk d e f =>
    have h2 := (IStream.good_iff _).1 h
    simp only at h2
    simp [h2.1, h2.2]

theorem IStream.peek_fst_none_iff (s : IStream) :
    s.peek.1 = none ↔ (s.good = false ∨ s.data = []) := by
  unfold IStream.peek
  cases hg : s.good <;> cases hd : s.data <;> simp

theorem IStream.peek_of_good (d : List Char) (c : Char) :
    IStream.peek ⟨c :: d, false, false⟩ = (some c, ⟨c :: d, false, false⟩) := rfl

theorem IStream.peek_snd_not_good {s : IStream} (h : s.peek.1 = none) :
    s.peek.2.good = false := by
  unfold IStream.peek at h ⊢
  cases hg : s.good <;> cases hd : s.data <;> simp_all [IStream.good]

theorem lead_add_length_dropSpaces (d : List Char) :
    lead d + (dropSpaces d).length = d.length := by
  induction d with
  | nil => rfl
  | cons c r ih =>
    by_cases h : c = ' '
    · simp [lead, dropSpaces, h]; omega
    · simp [lead, dropSpaces, h]

theorem replicate_lead_append (d : List Char) :
    List.replicate (lead d) ' ' ++ dropSpaces d = d := by
  induction d with
  | nil => rfl
  | cons c r ih =>
    by_cases h : c = ' '
    · simp [lead, dropSpaces, h, List.replicate_succ, ih]
    · simp [lead, dropSpaces, h]

theorem lead_dropSpaces (d : List Char) : lead (dropSpaces d) = 0 := by
  induction d with
  | nil => rfl
  | cons c r ih =>
    by_cases h : c = ' '
    · simp [dropSpaces, h, ih]
    · simp [lead, dropSpaces, h]

/-! ## Closed forms of the loops -/

theorem CalculateIndent_loop_good (d : List Char) :
    ∀ (fuel n : Nat), d.length < fuel →
      Lexer.CalculateIndent.loop fuel ⟨d, false, false⟩ n
        = (n + lead d, ⟨dropSpaces d, (dropSpaces d).isEmpty, false⟩) := by
  induction d with
  | nil =>
    intro fuel n h
    cases fuel with
    | zero => simp at h
    | succ f => simp [Lexer.CalculateIndent.loop, IStream.peek, IStream.good, lead, dropSpaces]
  | cons c r ih =>
    intro fuel n h
    cases fuel with
    | zero => simp at h
    | succ f =>
      have hf : r.length < f := by simpa using h
      by_cases hc : c = ' '
      · simp [Lexer.CalculateIndent.loop, IStream.peek, IStream.good, IStream.get, hc, lead,
          dropSpaces, ih f (n + 1) hf]
        omega
      · simp [Lexer.CalculateIndent.loop, IStream.peek, IStream.good, hc, lead, dropSpaces]

theorem putbackLoop_good (k : Nat) :
    ∀ (d : List Char) (e : Bool), 0 < k →
      Lexer.CalculateIndent.putbackLoop k ⟨d, e, false⟩
        = ⟨List.replicate k ' ' ++ d, false, false⟩ := by
  induction k with
  | zero => intro d e h; simp at h
  | succ k ih =>
    intro d e _
    cases k with
    | zero => simp [Lexer.CalculateIndent.putbackLoop, IStream.putback]
    | succ k =>
      rw [Lexer.CalculateIndent.putbackLoop, IStream.putback]
      simp only [Bool.false_eq_true, if_false]
      rw [ih _ _ (Nat.succ_pos k)]
      simp [List.replicate_succ', List.append_assoc]

theorem tmod_two_eq_zero_iff (a : Int) : a.tmod 2 = 0 ↔ a % 2 = 0 := by
  constructor
  · intro h; exact Int.emod_eq_zero_of_dvd (Int.dvd_of_tmod_eq_zero h)
  · intro h; exact Int.tmod_eq_zero_of_dvd (Int.dvd_of_emod_eq_zero h)

theorem putbackLoop_restore (d : List Char) (hd : d ≠ []) :
    Lexer.CalculateIndent.putbackLoop (lead d) ⟨dropSpaces d, (dropSpaces d).isEmpty, false⟩
      = ⟨d, false, false⟩ := by
  by_cases hk : lead d = 0
  · have h := replicate_lead_append d
    rw [hk] at h
    simp only [List.replicate_zero, List.nil_append] at h
    rw [hk, h, Lexer.CalculateIndent.putbackLoop]
    cases d with
    | nil => exact absurd rfl hd
    | cons c r => rfl
  · rw [putbackLoop_good _ _ _ (Nat.pos_of_ne_zero hk), replicate_lead_append]

/-- Closed form of `CalculateIndent` on a good stream with bytes left. -/
theorem CalculateIndent_eq (l : Lexer) (d : List Char) (hd : d ≠ [])
    (hin : l.input_ = ⟨d, false, false⟩) :
    l.CalculateIndent =
      if (lead d : Int) - l.current_indent_ = 0 then
        (.ok false, { l with input_ := ⟨dropSpaces d, (dropSpaces d).isEmpty, false⟩ })
      else if ((lead d : Int) - l.current_indent_) % 2 = 0
          ∧ (lead d : Int) - l.current_indent_ > 0 then
        (.ok true, { l with tokens_ := l.tokens_ ++ [Token.Indent],
                            current_indent_ := l.current_indent_ + 2 })
      else if ((lead d : Int) - l.current_indent_) % 2 = 0
          ∧ (lead d : Int) - l.current_indent_ < 0 then
        (.ok true, { l with tokens_ := l.tokens_ ++ [Token.Dedent],
                            current_indent_ := l.current_indent_ - 2 })
      else
        (.error ⟨"Indents are not even"⟩,
          { l with input_ := ⟨dropSpaces d, (dropSpaces d).isEmpty, false⟩ }) := by
  cases l with
  | mk ts inp ci =>
    simp only at hin
    subst hin
    simp only [Lexer.CalculateIndent, CalculateIndent_loop_good d _ 0 (Nat.lt_succ_self _),
      Nat.zero_add, tmod_two_eq_zero_iff, Lexer.push, putbackLoop_restore d hd]

theorem AddKeywordOrId_loop_good (d : List Char) :
    ∀ (fuel : Nat) (c : Char) (kw : List Char), d.length < fuel →
      ∃ c1, Lexer.AddKeywordOrId.loop fuel ⟨d, false, false⟩ c kw
          = (kw ++ d.takeWhile isword, c1,
              (match d.dropWhile isword with
               | [] => (⟨[], true, true⟩ : IStream)
               | _ :: r => ⟨r, false, false⟩))
        ∧ (∀ x r, d.dropWhile isword = x :: r → c1 = x) := by
  induction d with
  | nil =>
    intro fuel c kw h
    cases fuel with
    | zero => simp at h
    | succ f =>
      exact ⟨c, by simp [Lexer.AddKeywordOrId.loop, IStream.get, IStream.good], by simp⟩
  | cons a r ih =>
    intro fuel c kw h
    cases fuel with
    | zero => simp at h
    | succ f =>
      have hf : r.length < f := by simpa using h
      by_cases ha : isword a = true
      · obtain ⟨c1, h1, h2⟩ := ih f a (kw ++ [a]) hf
        refine ⟨c1, ?_, ?_⟩
        · have ha2 : (isdigit a || isalpha a || decide (a = '_')) = true := ha
          simp only [Lexer.AddKeywordOrId.loop, IStream.get, IStream.good, Bool.not_false,
            Bool.and_self, if_true, ha2, h1, List.takeWhile_cons, ha, List.dropWhile_cons,
            List.append_assoc, List.singleton_append]
        · intro x r2 hx
          simp only [List.dropWhile_cons, ha, if_true] at hx
          exact h2 x r2 hx
      · refine ⟨a, ?_, ?_⟩
        · have ha2 : ¬ (isdigit a || isalpha a || decide (a = '_')) = true := ha
          simp [Lexer.AddKeywordOrId.loop, IStream.get, IStream.good, ha2, ha]
        · intro x r2 hx
          simp only [List.dropWhile_cons, ha, if_false] at hx
          exact (List.cons.inj hx).1

/-- Closed form of `AddKeywordOrId` on a good stream. -/
theorem AddKeywordOrId_eq (l : Lexer) (d : List Char) (hin : l.input_ = ⟨d, false, false⟩) :
    l.AddKeywordOrId =
      { l with tokens_ := l.tokens_ ++ [Lexer.keywordToken (String.mk (d.takeWhile isword))],
               input_ := IStream.resume (d.dropWhile isword) } := by
  cases l with
  | mk ts inp ci =>
    simp only at hin
    subst hin
    obtain ⟨c1, h1, h2⟩ :=
      AddKeywordOrId_loop_good d (d.length + 1) (Char.ofNat 0) [] (Nat.lt_succ_self _)
    simp only [Lexer.AddKeywordOrId, h1, Lexer.push, List.nil_append]
    cases hdw : d.dropWhile isword with
    | nil => simp [IStream.putback, IStream.resume]
    | cons x r => simp [IStream.putback, IStream.resume, h2 x r hdw]

theorem RemoveSpaces_loop_good (d : List Char) :
    ∀ (fuel : Nat) (c : Char), d.length < fuel →
      ∃ c1, Lexer.RemoveSpaces.loop fuel ⟨d, false, false⟩ c
          = (c1, (match d.dropWhile isspace with
               | [] => (⟨[], true, true⟩ : IStream)
               | _ :: r => ⟨r, false, false⟩))
        ∧ (∀ x r, d.dropWhile isspace = x :: r → c1 = x) := by
  induction d with
  | nil =>
    intro fuel c h
    cases fuel with
    | zero => simp at h
    | succ f =>
      exact ⟨c, by simp [Lexer.RemoveSpaces.loop, IStream.get, IStream.good], by simp⟩
  | cons a r ih =>
    intro fuel c h
    cases fuel with
    | zero => simp at h
    | succ f =>
      have hf : r.length < f := by simpa using h
      by_cases ha : isspace a = true
      · obtain ⟨c1, h1, h2⟩ := ih f a hf
        refine ⟨c1, ?_, ?_⟩
        · simp only [Lexer.RemoveSpaces.loop, IStream.get, IStream.good, Bool.not_false,
            Bool.and_self, if_true, ha, h1, List.dropWhile_cons]
        · intro x r2 hx
          simp only [List.dropWhile_cons, ha, if_true] at hx
          exact h2 x r2 hx
      · refine ⟨a, ?_, ?_⟩
        · simp [Lexer.RemoveSpaces.loop, IStream.get, IStream.good, ha]
        · intro x r2 hx
          simp only [List.dropWhile_cons, ha, if_false] at hx
          exact (List.cons.inj hx).1

/-- Closed form of `RemoveSpaces` on a good stream. -/
theorem RemoveSpaces_eq (l : Lexer) (d : List Char) (hin : l.input_ = ⟨d, false, false⟩) :
    l.RemoveSpaces = { l with input_ := IStream.resume (d.dropWhile isspace) } := by
  cases l with
  | mk ts inp ci =>
    simp only at hin
    subst hin
    obtain ⟨c1, h1, h2⟩ :=
      RemoveSpaces_loop_good d (d.length + 1) (Char.ofNat 0) (Nat.lt_succ_self _)
    simp only [Lexer.RemoveSpaces, h1]
    cases hdw : d.dropWhile isspace with
    | nil => simp [IStream.putback, IStream.resume]
    | cons x r => simp [IStream.putback, IStream.resume, h2 x r hdw]

theorem quote_cond_iff (q c : Char) (hq : q = '\'' ∨ q = '"') :
    ((q = '\'' ∧ c ≠ '\'') ∨ (q = '"' ∧ c ≠ '"')) ↔ c ≠ q := by
  have h1 : ('\'' : Char) ≠ '"' := by decide
  have h2 : ('"' : Char) ≠ '\'' := by decide
  rcases hq with rfl | rfl
  · simp [h1]
  · simp [h2]

theorem AddString_loop_good (q : Char) (hq : q = '\'' ∨ q = '"') (d : List Char) :
    ∀ (fuel : Nat) (str : List Char), d.length < fuel →
      Lexer.AddString.loop q fuel ⟨d, false, false⟩ str
        = (str ++ d.takeWhile (fun c => decide (c ≠ q)),
            (match d.dropWhile (fun c => decide (c ≠ q)) with
             | [] => (⟨[], true, true⟩ : IStream)
             | _ :: r => ⟨r, false, false⟩)) := by
  induction d with
  | nil =>
    intro fuel str h
    cases fuel with
    | zero => simp at h
    | succ f => simp [Lexer.AddString.loop, IStream.get, IStream.good]
  | cons a r ih =>
    intro fuel str h
    cases fuel with
    | zero => simp at h
    | succ f =>
      have hf : r.length < f := by simpa using h
      by_cases ha : a = q
      · have hcond : ¬ ((q = '\'' ∧ a ≠ '\'') ∨ (q = '"' ∧ a ≠ '"')) := by
          rw [quote_cond_iff q a hq]; simp [ha]
        simp [Lexer.AddString.loop, IStream.get, IStream.good, hcond, ha]
      · have hcond : (q = '\'' ∧ a ≠ '\'') ∨ (q = '"' ∧ a ≠ '"') :=
          (quote_cond_iff q a hq).2 ha
        simp only [Lexer.AddString.loop, IStream.get, IStream.good, Bool.not_false,
          Bool.and_self, if_true, hcond, ih f (str ++ [a]) hf]
        simp [ha]

/-- Closed form of `AddString` on a good stream that starts with a quote. -/
theorem AddString_eq (l : Lexer) (q : Char) (d : List Char) (hq : q = '\'' ∨ q = '"')
    (hin : l.input_ = ⟨q :: d, false, false⟩) :
    l.AddString =
      { l with tokens_ := l.tokens_
                 ++ [Token.String (String.mk (d.takeWhile (fun c => decide (c ≠ q))))],
               input_ := (match d.dropWhile (fun c => decide (c ≠ q)) with
                          | [] => (⟨[], true, true⟩ : IStream)
                          | _ :: r => ⟨r, false, false⟩) } := by
  cases l with
  | mk ts inp ci =>
    simp only at hin
    subst hin
    simp only [Lexer.AddString, IStream.get, IStream.good, Bool.not_false, Bool.and_self,
      if_true, toChar, AddString_loop_good q hq d _ [] (Nat.lt_succ_self _), Lexer.push,
      List.nil_append]

/-- Closed form of `AddDoubleChar` on a good stream that starts with one of
`=`, `<`, `>`, `!`. -/
theorem AddDoubleChar_eq (l : Lexer) (c : Char) (d : List Char)
    (hc : c = '=' ∨ c = '<' ∨ c = '>' ∨ c = '!')
    (hin : l.input_ = ⟨c :: d, false, false⟩) :
    l.AddDoubleChar =
      (match d.dropWhile isspace with
       | [] => { l with tokens_ := l.tokens_ ++ [Token.Char c], input_ := ⟨[], false, true⟩ }
       | x :: r =>
         if x = '=' then
           { l with tokens_ := l.tokens_ ++ [Lexer.doubleToken c], input_ := ⟨r, false, false⟩ }
         else
           { l with tokens_ := l.tokens_ ++ [Token.Char c],
                    input_ := ⟨x :: r, false, false⟩ }) := by
  cases l with
  | mk ts inp ci =>
    simp only at hin
    subst hin
    cases hdw : d.dropWhile isspace with
    | nil =>
      simp [Lexer.AddDoubleChar, IStream.get, IStream.good, IStream.extractChar,
        IStream.sentry, hdw, toChar, IStream.putback, Lexer.push]
    | cons x r =>
      by_cases hx : x = '='
      · subst hx
        rcases hc with rfl | rfl | rfl | rfl <;>
          simp [Lexer.AddDoubleChar, IStream.get, IStream.good, IStream.extractChar,
            IStream.sentry, hdw, toChar, Lexer.push, Lexer.doubleToken]
      · simp [Lexer.AddDoubleChar, IStream.get, IStream.good, IStream.extractChar,
          IStream.sentry, hdw, toChar, IStream.putback, Lexer.push, hx]

/-! ## Every token-producing branch extracts at least one byte -/

theorem length_dropWhile_le (p : Char → Bool) (d : List Char) :
    (d.dropWhile p).length ≤ d.length := by
  induction d with
  | nil => simp
  | cons a r ih =>
    by_cases h : p a = true
    · simp only [List.dropWhile_cons, h, if_true, List.length_cons]; omega
    · simp [List.dropWhile_cons, h]

theorem IStream.rem_le_length (s : IStream) : s.rem ≤ s.data.length := by
  unfold IStream.rem; split <;> simp

theorem IStream.rem_good (d : List Char) : IStream.rem ⟨d, false, false⟩ = d.length := rfl

theorem IStream.rem_resume_le (d : List Char) : (IStream.resume d).rem ≤ d.length := by
  cases d <;> simp [IStream.resume, IStream.rem, IStream.good]

theorem char_le_iff (a b : Char) : a ≤ b ↔ a.toNat ≤ b.toNat := by
  rw [Char.le_def]
  exact Iff.rfl

theorem char_eq_iff (a b : Char) : a = b ↔ a.toNat = b.toNat := by
  constructor
  · intro h; rw [h]
  · intro h
    apply Char.ext
    apply UInt32.ext
    exact h

theorem isspace_of_isdigit (c : Char) (h : isdigit c = true) : isspace c = false := by
  simp only [isdigit, isspace, decide_eq_true_eq, decide_eq_false_iff_not, char_le_iff,
    char_eq_iff c] at *
  have h1 : ('0' : Char).toNat = 48 := by decide
  have h2 : ('9' : Char).toNat = 57 := by decide
  have h3 : (' ' : Char).toNat = 32 := by decide
  have h4 : (Char.ofNat 13).toNat = 13 := by decide
  have h5 : (Char.ofNat 9).toNat = 9 := by decide
  omega

theorem ite_token_ne {c : Prop} [Decidable c] {a b t : Token} (ha : a ≠ t) (hb : b ≠ t) :
    (if c then a else b) ≠ t := by
  split <;> assumption

theorem keywordToken_ne (k : String) :
    Lexer.keywordToken k ≠ Token.Indent ∧ Lexer.keywordToken k ≠ Token.Dedent
      ∧ Lexer.keywordToken k ≠ Token.Eof := by
  unfold Lexer.keywordToken
  refine ⟨?_, ?_, ?_⟩ <;>
    repeat' (first | exact (fun h => Token.noConfusion h) | apply ite_token_ne)

theorem doubleToken_ne (c : Char) :
    Lexer.doubleToken c ≠ Token.Indent ∧ Lexer.doubleToken c ≠ Token.Dedent
      ∧ Lexer.doubleToken c ≠ Token.Eof := by
  unfold Lexer.doubleToken
  refine ⟨?_, ?_, ?_⟩ <;> (split_ifs <;> (intro h; cases h))

theorem AddNewline_emits (l : Lexer) (c : Char) (d : List Char)
    (hin : l.input_ = ⟨c :: d, false, false⟩) : l.Emits l.AddNewline := by
  refine ⟨Token.Newline, by simp, by simp, by simp, ?_, ?_, ?_⟩ <;>
    simp [Lexer.AddNewline, Lexer.push, hin, IStream.get, IStream.good, IStream.rem]

theorem AddChar_emits (l : Lexer) (c x : Char) (d : List Char)
    (hin : l.input_ = ⟨c :: d, false, false⟩) : l.Emits (l.AddChar x) := by
  refine ⟨Token.Char x, by simp, by simp, by simp, ?_, ?_, ?_⟩ <;>
    simp [Lexer.AddChar, Lexer.push, hin, IStream.get, IStream.good, IStream.rem]

theorem AddKeywordOrId_emits (l : Lexer) (c : Char) (d : List Char)
    (hin : l.input_ = ⟨c :: d, false, false⟩) (hc : isword c = true) :
    l.Emits l.AddKeywordOrId := by
  rw [AddKeywordOrId_eq l (c :: d) hin]
  refine ⟨_, (keywordToken_ne _).1, (keywordToken_ne _).2.1, (keywordToken_ne _).2.2, rfl, rfl, ?_⟩
  have h1 := IStream.rem_resume_le (List.dropWhile isword (c :: d))
  have h2 := length_dropWhile_le isword d
  simp only [List.dropWhile_cons, hc, if_true] at h1
  simp only [hin, IStream.rem_good, List.dropWhile_cons, hc, if_true, List.length_cons]
  omega

theorem AddString_emits (l : Lexer) (q : Char) (d : List Char) (hq : q = '\'' ∨ q = '"')
    (hin : l.input_ = ⟨q :: d, false, false⟩) : l.Emits l.AddString := by
  rw [AddString_eq l q d hq hin]
  refine ⟨_, by simp, by simp, by simp, rfl, rfl, ?_⟩
  have h2 := length_dropWhile_le (fun c => decide (c ≠ q)) d
  simp only [hin, IStream.rem_good, List.length_cons]
  cases hdw : d.dropWhile (fun c => decide (c ≠ q)) with
  | nil => simp [IStream.rem, IStream.good]
  | cons x r =>
    rw [hdw] at h2
    simp only [IStream.rem_good]
    simp only [List.length_cons] at h2
    omega

theorem AddDoubleChar_emits (l : Lexer) (c : Char) (d : List Char)
    (hc : c = '=' ∨ c = '<' ∨ c = '>' ∨ c = '!')
    (hin : l.input_ = ⟨c :: d, false, false⟩) : l.Emits l.AddDoubleChar := by
  rw [AddDoubleChar_eq l c d hc hin]
  have h2 := length_dropWhile_le isspace d
  cases hdw : d.dropWhile isspace with
  | nil =>
    refine ⟨Token.Char c, by simp, by simp, by simp, rfl, rfl, ?_⟩
    simp [hin, IStream.rem, IStream.good]
  | cons x r =>
    rw [hdw] at h2
    simp only [List.length_cons] at h2
    by_cases hx : x = '='
    · simp only [hx, if_true]
      refine ⟨_, (doubleToken_ne c).1, (doubleToken_ne c).2.1, (doubleToken_ne c).2.2, rfl, rfl, ?_⟩
      simp only [hin, IStream.rem_good, List.length_cons]
      omega
    · simp only [hx, if_false]
      refine ⟨Token.Char c, by simp, by simp, by simp, rfl, rfl, ?_⟩
      simp only [hin, IStream.rem_good, List.length_cons]
      omega

theorem AddNumber_emits (l : Lexer) (c : Char) (d : List Char)
    (hin : l.input_ = ⟨c :: d, false, false⟩) (hc : isdigit c = true) :
    l.Emits l.AddNumber := by
  have hsp := isspace_of_isdigit c hc
  have h2 := length_dropWhile_le isdigit d
  have hs : l.input_.sentry = (true, ⟨c :: d, false, false⟩) := by
    simp [hin, IStream.sentry, IStream.good, List.dropWhile_cons, hsp]
  refine ⟨Token.Number ((l.input_.extractInt).1.getD 0), by simp, by simp, by simp, ?_, ?_, ?_⟩
  · simp [Lexer.AddNumber, Lexer.push]
  · simp [Lexer.AddNumber, Lexer.push]
  · have h3 : (l.input_.extractInt).2.data = d.dropWhile isdigit := by
      simp only [IStream.extractInt, hs, List.takeWhile_cons, hc, if_true,
        List.dropWhile_cons]
      split_ifs <;> rfl
    have h4 := IStream.rem_le_length (l.input_.extractInt).2
    rw [h3] at h4
    have h5 : (l.AddNumber).input_ = (l.input_.extractInt).2 := by
      simp [Lexer.AddNumber, Lexer.push]
    rw [h5]
    simp only [hin, IStream.rem_good, List.length_cons] at *
    omega

/-! ## One `ReadToken` call -/

theorem dispatch_dead (l1 : Lexer) (h : l1.input_.good = false) :
    ∃ l2, (∀ again, Lexer.ReadToken.dispatch again l1 = some (.ok true, l2))
      ∧ l2.tokens_ = l1.tokens_ ++ [Token.Char (Char.ofNat 255)]
      ∧ l2.current_indent_ = l1.current_indent_ ∧ l2.input_.good = false := by
  have hp : l1.input_.peek = (none, { l1.input_ with failbit := true }) := by
    simp [IStream.peek, h]
  have h1 : isalpha (Char.ofNat 255) = false := by decide
  have h2 : isdigit (Char.ofNat 255) = false := by decide
  have h3 : isspace (Char.ofNat 255) = false := by decide
  have h4 : ¬ (Char.ofNat 255 = '\n') := by decide
  have h5 : ¬ (Char.ofNat 255 = '_') := by decide
  have h6 : ¬ (Char.ofNat 255 = '\'' ∨ Char.ofNat 255 = '"') := by decide
  have h7 : ¬ (Char.ofNat 255 = '=' ∨ Char.ofNat 255 = '<' ∨ Char.ofNat 255 = '>'
      ∨ Char.ofNat 255 = '!') := by decide
  refine ⟨Lexer.AddChar { l1 with input_ := { l1.input_ with failbit := true } }
    (Char.ofNat 255), ?_, ?_, ?_, ?_⟩
  · intro again
    simp only [Lexer.ReadToken.dispatch, hp, toChar, h1, h2, h3, h4, h5, h6, h7, and_false,
      or_self, if_false, Bool.false_eq_true]
  · simp [Lexer.AddChar, Lexer.push]
  · simp [Lexer.AddChar, Lexer.push]
  · simp [Lexer.AddChar, Lexer.push, IStream.get, IStream.good]

theorem isword_of_alpha (c : Char) (h : isalpha c = true ∨ c = '_') : isword c = true := by
  rcases h with h | h <;> simp [isword, h]

theorem dispatch_good (l1 : Lexer) (c : Char) (d : List Char)
    (hin : l1.input_ = ⟨c :: d, false, false⟩) :
    (isspace c = true ∧ ∀ again, Lexer.ReadToken.dispatch again l1 = again l1.RemoveSpaces)
      ∨ ∃ l2, (∀ again, Lexer.ReadToken.dispatch again l1 = some (.ok true, l2))
          ∧ l1.Emits l2 := by
  cases l1 with
  | mk ts inp ci =>
    simp only at hin
    subst hin
    simp only [Lexer.ReadToken.dispatch, IStream.peek_of_good, toChar]
    split_ifs with h1 h2 h3 h4 h5 h6
    · exact Or.inr ⟨_, fun _ => rfl, AddNewline_emits _ c d rfl⟩
    · exact Or.inr ⟨_, fun _ => rfl, AddKeywordOrId_emits _ c d rfl (isword_of_alpha c h2)⟩
    · exact Or.inr ⟨_, fun _ => rfl, AddNumber_emits _ c d rfl h3⟩
    · exact Or.inr ⟨_, fun _ => rfl, AddString_emits _ c d h4 rfl⟩
    · exact Or.inl ⟨h5, fun _ => rfl⟩
    · exact Or.inr ⟨_, fun _ => rfl, AddDoubleChar_emits _ c d h6 rfl⟩
    · exact Or.inr ⟨_, fun _ => rfl, AddChar_emits _ c c d rfl⟩

/-- One unfolding of `ReadToken.go` on a good stream with bytes left. -/
theorem go_succ_good (l : Lexer) (c : Char) (d : List Char)
    (hin : l.input_ = ⟨c :: d, false, false⟩) (fuel : Nat) :
    Lexer.ReadToken.go (fuel + 1) l =
      if l.atLineStart then
        if (lead (c :: d) : Int) - l.current_indent_ = 0 then
          Lexer.ReadToken.dispatch (Lexer.ReadToken.go fuel)
            { l with input_ := ⟨dropSpaces (c :: d), (dropSpaces (c :: d)).isEmpty, false⟩ }
        else if ((lead (c :: d) : Int) - l.current_indent_) % 2 = 0
            ∧ (lead (c :: d) : Int) - l.current_indent_ > 0 then
          some (.ok true, { l with tokens_ := l.tokens_ ++ [Token.Indent],
                                   current_indent_ := l.current_indent_ + 2 })
        else if ((lead (c :: d) : Int) - l.current_indent_) % 2 = 0
            ∧ (lead (c :: d) : Int) - l.current_indent_ < 0 then
          some (.ok true, { l with tokens_ := l.tokens_ ++ [Token.Dedent],
                                   current_indent_ := l.current_indent_ - 2 })
        else
          some (.error ⟨"Indents are not even"⟩,
            { l with input_ := ⟨dropSpaces (c :: d), (dropSpaces (c :: d)).isEmpty, false⟩ })
      else Lexer.ReadToken.dispatch (Lexer.ReadToken.go fuel) l := by
  cases l with
  | mk ts inp ci =>
    simp only at hin
    subst hin
    by_cases hls : (Lexer.mk ts ⟨c :: d, false, false⟩ ci).atLineStart
    · have hls2 := hls
      unfold Lexer.atLineStart at hls2
      have hce := CalculateIndent_eq (Lexer.mk ts ⟨c :: d, false, false⟩ ci) (c :: d)
        (List.cons_ne_nil c d) rfl
      rw [if_pos hls]
      simp only [Lexer.ReadToken.go, IStream.peek_of_good, if_pos hls2, hce]
      split_ifs <;> rfl
    · have hls2 := hls
      unfold Lexer.atLineStart at hls2
      rw [if_neg hls]
      simp only [Lexer.ReadToken.go, IStream.peek_of_good, if_neg hls2]

theorem go_succ_dead (l : Lexer) (h : l.input_.peek.1 = none) (fuel : Nat) :
    Lexer.ReadToken.go (fuel + 1) l = some (.ok false, { l with input_ := l.input_.peek.2 }) := by
  rw [Lexer.ReadToken.go]
  cases hp : l.input_.peek with
  | mk a b =>
    rw [hp] at h
    simp only at h
    subst h
    rfl

theorem CurrentToken_congr {l1 l : Lexer} (h : l1.tokens_ = l.tokens_) :
    l1.CurrentToken = l.CurrentToken := by
  simp [Lexer.CurrentToken, Lexer.back, h]

theorem atLineStart_congr {l1 l : Lexer} (h : l1.tokens_ = l.tokens_) :
    l1.atLineStart ↔ l.atLineStart := by
  simp [Lexer.atLineStart, CurrentToken_congr h]

theorem CurrentToken_concat (l : Lexer) (ts : List Token) (t : Token)
    (h : l.tokens_ = ts ++ [t]) : l.CurrentToken = t := by
  simp [Lexer.CurrentToken, Lexer.back, h]

theorem Lexer.Step.weaken {l1 l l2 : Lexer} {res : Except LexerError Bool}
    (h : Lexer.Step l1 res l2) (hne : ∀ e, res ≠ .error e)
    (ht : l1.tokens_ = l.tokens_) (hi : l1.current_indent_ = l.current_indent_)
    (hr : l1.input_.rem ≤ l.input_.rem) : Lexer.Step l res l2 := by
  cases h with
  | eof _ h1 h2 h3 => exact Lexer.Step.eof l2 (h1.trans ht) (h2.trans hi) h3
  | indent _ h1 h2 h3 h4 =>
    exact Lexer.Step.indent l2 (ht ▸ h1) (hi ▸ h2) ((CurrentToken_congr ht).symm.trans h3)
      (le_trans h4 hr)
  | dedent _ h1 h2 h3 h4 h5 h6 =>
    exact Lexer.Step.dedent l2 (ht ▸ h1) (hi ▸ h2) (hi ▸ h3) ((atLineStart_congr ht).1 h4)
      (le_trans h5 hr) h6
  | token _ h1 =>
    obtain ⟨t, a, b, b2, c, d, e⟩ := h1
    exact Lexer.Step.token l2 ⟨t, a, b, b2, ht ▸ c, hi ▸ d, lt_of_lt_of_le e hr⟩
  | raise _ => exact absurd rfl (hne _)

theorem dropWhile_head_false (p : Char → Bool) (d : List Char) (x : Char) (r : List Char)
    (h : d.dropWhile p = x :: r) : p x = false := by
  induction d with
  | nil => simp at h
  | cons a t ih =>
    by_cases ha : p a = true
    · simp only [List.dropWhile_cons, ha, if_true] at h
      exact ih h
    · simp only [List.dropWhile_cons, ha, if_false] at h
      have := (List.cons.inj h).1
      subst this
      simpa using ha

theorem lead_of_not_space (x : Char) (r : List Char) (h : isspace x = false) :
    lead (x :: r) = 0 ∧ dropSpaces (x :: r) = x :: r := by
  have hx : x ≠ ' ' := by
    intro hx
    subst hx
    exact absurd h (by decide)
  simp [lead, dropSpaces, hx]

/-- A `ReadToken` call on a stream that is dead or starts with a byte that is
not white space (the state in which the recursive call is made) does not
recurse again. -/
theorem go_nospace (l : Lexer) (dw : List Char) (hin : l.input_ = IStream.resume dw)
    (hhead : ∀ x r, dw = x :: r → isspace x = false) :
    ∃ res l2, (∀ f, Lexer.ReadToken.go (f + 1) l = some (res, l2))
      ∧ (l.current_indent_ % 2 = 0 → 0 ≤ l.current_indent_ →
          Lexer.Step l res l2 ∧ ∀ e, res ≠ .error e) := by
  cases dw with
  | nil =>
    have hp : l.input_.peek.1 = none := by rw [hin]; rfl
    refine ⟨_, _, fun f => go_succ_dead l hp f, fun _ _ => ⟨?_, fun e h => by cases h⟩⟩
    exact Lexer.Step.eof _ rfl rfl (IStream.peek_snd_not_good hp)
  | cons x r =>
    have hx := hhead x r rfl
    obtain ⟨hl0, hds⟩ := lead_of_not_space x r hx
    have hin2 : l.input_ = ⟨x :: r, false, false⟩ := by rw [hin]; rfl
    have hgo := go_succ_good l x r hin2
    have hemit : ∀ l1 : Lexer, l1.input_ = ⟨x :: r, false, false⟩ →
        ∃ l2, (∀ again, Lexer.ReadToken.dispatch again l1 = some (.ok true, l2))
          ∧ l1.Emits l2 := by
      intro l1 h1
      rcases dispatch_good l1 x r h1 with ⟨hsp, _⟩ | h
      · rw [hx] at hsp; cases hsp
      · exact h
    by_cases hls : l.atLineStart
    · simp only [if_pos hls, hl0, hds] at hgo
      by_cases h0 : ((0 : Nat) : Int) - l.current_indent_ = 0
      · simp only [if_pos h0] at hgo
        obtain ⟨l2, h2, hem⟩ := hemit
          { l with input_ := ⟨x :: r, (x :: r).isEmpty, false⟩ } rfl
        refine ⟨_, l2, fun f => (hgo f).trans (h2 _), fun _ _ => ⟨?_, fun e h => by cases h⟩⟩
        obtain ⟨t, a, b, b2, c, d, e⟩ := hem
        exact Lexer.Step.token l2 ⟨t, a, b, b2, c, d, by rw [hin2]; exact e⟩
      · simp only [if_neg h0] at hgo
        by_cases h1 : (((0 : Nat) : Int) - l.current_indent_) % 2 = 0
            ∧ ((0 : Nat) : Int) - l.current_indent_ > 0
        · simp only [if_pos h1] at hgo
          refine ⟨_, _, hgo, fun _ hnn => ?_⟩
          exfalso
          have := h1.2
          omega
        · simp only [if_neg h1] at hgo
          by_cases h2 : (((0 : Nat) : Int) - l.current_indent_) % 2 = 0
              ∧ ((0 : Nat) : Int) - l.current_indent_ < 0
          · simp only [if_pos h2] at hgo
            refine ⟨_, _, hgo, fun hev hnn => ⟨?_, fun e h => by cases h⟩⟩
            refine Lexer.Step.dedent _ rfl rfl ?_ hls (le_refl _) ?_
            · have := h2.2
              omega
            · intro _
              simp only [hin2, hl0]
              have := h2.2
              omega
          · simp only [if_neg h2] at hgo
            refine ⟨_, _, hgo, fun hev hnn => ?_⟩
            exfalso
            omega
    · simp only [if_neg hls] at hgo
      obtain ⟨l2, h2, hem⟩ := hemit l hin2
      exact ⟨_, l2, fun f => (hgo f).trans (h2 _),
        fun _ _ => ⟨Lexer.Step.token l2 hem, fun e h => by cases h⟩⟩

/-- The dispatch of `ReadToken` on a good stream with bytes left: at most one
recursive call is made. -/
theorem dispatch_spec (l1 : Lexer) (x : Char) (r : List Char)
    (hin : l1.input_ = ⟨x :: r, false, false⟩) :
    ∃ res l2, (∀ f, Lexer.ReadToken.dispatch (Lexer.ReadToken.go (f + 1)) l1 = some (res, l2))
      ∧ (l1.current_indent_ % 2 = 0 → 0 ≤ l1.current_indent_ →
          Lexer.Step l1 res l2 ∧ ∀ e, res ≠ .error e) := by
  rcases dispatch_good l1 x r hin with ⟨hsp, hd⟩ | ⟨l2, h2, hem⟩
  · have hrs := RemoveSpaces_eq l1 (x :: r) hin
    obtain ⟨res, l2, hgo, hstep⟩ := go_nospace l1.RemoveSpaces
      ((x :: r).dropWhile isspace) (by rw [hrs]) (dropWhile_head_false isspace (x :: r))
    refine ⟨res, l2, fun f => (hd _).trans (hgo f), fun hev hnn => ?_⟩
    have hev2 : l1.RemoveSpaces.current_indent_ % 2 = 0 := by rw [hrs]; exact hev
    have hnn2 : 0 ≤ l1.RemoveSpaces.current_indent_ := by rw [hrs]; exact hnn
    obtain ⟨hs, hne⟩ := hstep hev2 hnn2
    refine ⟨Lexer.Step.weaken hs hne (by rw [hrs]) (by rw [hrs]) ?_, hne⟩
    rw [hrs, hin]
    have h1 := IStream.rem_resume_le ((x :: r).dropWhile isspace)
    have h2 := length_dropWhile_le isspace (x :: r)
    simp only [IStream.rem_good]
    omega
  · exact ⟨_, l2, fun f => h2 _, fun _ _ => ⟨Lexer.Step.token l2 hem, fun e h => by cases h⟩⟩

/-- Every `ReadToken` call returns within two levels of recursion, and on a
state satisfying `Inv` it makes one of the five steps of `Step`. -/
theorem go_spec (l : Lexer) :
    ∃ res l2, (∀ f, Lexer.ReadToken.go (f + 2) l = some (res, l2))
      ∧ (l.Inv → Lexer.Step l res l2) := by
  by_cases hp : l.input_.peek.1 = none
  · exact ⟨_, _, fun f => go_succ_dead l hp (f + 1),
      fun _ => Lexer.Step.eof _ rfl rfl (IStream.peek_snd_not_good hp)⟩
  · have hg : l.input_.good = true ∧ l.input_.data ≠ [] := by
      rw [IStream.peek_fst_none_iff] at hp
      push_neg at hp
      exact ⟨by simpa using hp.1, hp.2⟩
    obtain ⟨c, d, hcd⟩ := List.exists_cons_of_ne_nil hg.2
    have hin : l.input_ = ⟨c :: d, false, false⟩ := by
      rw [IStream.eq_of_good hg.1, hcd]
    have hgo := fun f => go_succ_good l c d hin (f + 1)
    have hrem : l.input_.rem = (c :: d).length := by rw [hin]; rfl
    have hlen := lead_add_length_dropSpaces (c :: d)
    by_cases hls : l.atLineStart
    · simp only [if_pos hls] at hgo
      by_cases h0 : (lead (c :: d) : Int) - l.current_indent_ = 0
      · simp only [if_pos h0] at hgo
        cases hds : dropSpaces (c :: d) with
        | nil =>
          simp only [hds] at hgo
          obtain ⟨l2, h2, ht, hi, hgd⟩ := dispatch_dead
            { l with input_ := ⟨[], ([] : List Char).isEmpty, false⟩ } (by rfl)
          refine ⟨_, l2, fun f => (hgo f).trans (h2 _), fun _ => ?_⟩
          refine Lexer.Step.token l2 ⟨_, by simp, by simp, by simp, ht, hi, ?_⟩
          have : l2.input_.rem = 0 := by simp [IStream.rem, hgd]
          rw [this, hrem]
          simp
        | cons x r =>
          simp only [hds] at hgo
          obtain ⟨res, l2, h2, hstep⟩ := dispatch_spec
            { l with input_ := ⟨x :: r, (x :: r).isEmpty, false⟩ } x r rfl
          refine ⟨res, l2, fun f => (hgo f).trans (h2 f), fun hinv => ?_⟩
          obtain ⟨hs, hne⟩ := hstep hinv.1 hinv.2.1
          refine Lexer.Step.weaken hs hne rfl rfl ?_
          rw [hrem]
          simp only [List.isEmpty_cons, IStream.rem_good]
          rw [hds] at hlen
          omega
      · simp only [if_neg h0] at hgo
        by_cases h1 : ((lead (c :: d) : Int) - l.current_indent_) % 2 = 0
            ∧ (lead (c :: d) : Int) - l.current_indent_ > 0
        · simp only [if_pos h1] at hgo
          refine ⟨_, _, hgo, fun hinv => ?_⟩
          refine Lexer.Step.indent _ rfl rfl ?_ (le_refl _)
          rcases hls with h | h
          · exact h
          · have h3 := hinv.2.2 h hg.1
            rw [hcd] at h3
            have := h1.2
            omega
        · simp only [if_neg h1] at hgo
          by_cases h2 : ((lead (c :: d) : Int) - l.current_indent_) % 2 = 0
              ∧ (lead (c :: d) : Int) - l.current_indent_ < 0
          · simp only [if_pos h2] at hgo
            refine ⟨_, _, hgo, fun hinv => ?_⟩
            have hev := hinv.1
            have := h2.1
            have := h2.2
            refine Lexer.Step.dedent _ rfl rfl (by omega) hls (le_refl _) ?_
            intro _
            simp only [hin]
            omega
          · simp only [if_neg h2] at hgo
            refine ⟨_, _, hgo, fun hinv => ?_⟩
            have hev := hinv.1
            have hodd : ((lead (c :: d) : Int) - l.current_indent_) % 2 = 1 := by omega
            refine Lexer.Step.raise _ rfl rfl hls ?_ ?_ hg.1 (by rw [hcd]; exact hodd)
            · have h3 := IStream.rem_le_length
                (⟨dropSpaces (c :: d), (dropSpaces (c :: d)).isEmpty, false⟩ : IStream)
              rw [hrem]
              simp only at h3 ⊢
              omega
            · intro _
              exact lead_dropSpaces (c :: d)
    · simp only [if_neg hls] at hgo
      obtain ⟨res, l2, h2, hstep⟩ := dispatch_spec l c d hin
      exact ⟨res, l2, fun f => (hgo f).trans (h2 f), fun hinv => (hstep hinv.1 hinv.2.1).1⟩

/-- The recursion bound of `ReadToken` is never exhausted: every bound of at
least two gives the result of `ReadToken`. -/
theorem ReadToken_go_eq (l : Lexer) (fuel : Nat) (h : 2 ≤ fuel) :
    Lexer.ReadToken.go fuel l = some l.ReadToken := by
  obtain ⟨res, l2, hgo, _⟩ := go_spec l
  obtain ⟨f, rfl⟩ : ∃ f, fuel = f + 2 := ⟨fuel - 2, by omega⟩
  rw [Lexer.ReadToken, hgo, hgo]
  rfl

theorem ReadToken_step (l : Lexer) (h : l.Inv) :
    Lexer.Step l l.ReadToken.1 l.ReadToken.2 := by
  obtain ⟨res, l2, hgo, hstep⟩ := go_spec l
  have := ReadToken_go_eq l 2 (le_refl _)
  rw [hgo 0] at this
  rw [← Option.some.inj this]
  exact hstep h

theorem NextToken_snd (l : Lexer) : l.NextToken.2 = l.ReadToken.2 := by
  unfold Lexer.NextToken
  rcases l.ReadToken with ⟨_ | _, _⟩ <;> rfl

theorem NextToken_fst (l : Lexer) :
    l.NextToken.1 =
      (match l.ReadToken.1 with
       | .ok added_token => .ok (if added_token then l.ReadToken.2.back else Token.Eof)
       | .error e => .error e) := by
  unfold Lexer.NextToken
  rcases l.ReadToken with ⟨_ | _, _⟩ <;> rfl

/-! ## Invariants of the reachable states -/

theorem Inv_start (input : List Char) : (Lexer.start input).Inv := by
  refine ⟨rfl, le_refl _, ?_⟩
  intro h
  have h0 : (Lexer.start input).CurrentToken = Token.Eof := rfl
  rw [h0] at h
  cases h

theorem Lexer.Step.inv {l l2 : Lexer} {res : Except LexerError Bool}
    (h : Lexer.Step l res l2) (hinv : l.Inv) : l2.Inv := by
  obtain ⟨hev, hnn, hded⟩ := hinv
  cases h with
  | eof _ h1 h2 h3 =>
    refine ⟨h2 ▸ hev, h2 ▸ hnn, fun _ hg => ?_⟩
    rw [h3] at hg
    cases hg
  | indent _ h1 h2 h3 h4 =>
    refine ⟨by rw [h2]; omega, by rw [h2]; omega, fun hc _ => ?_⟩
    rw [CurrentToken_concat l2 _ _ h1] at hc
    cases hc
  | dedent _ h1 h2 h3 h4 h5 h6 =>
    exact ⟨by rw [h2]; omega, by rw [h2]; omega, fun _ hg => h6 hg⟩
  | token _ h1 =>
    obtain ⟨t, a, b, b2, c, d, e⟩ := h1
    refine ⟨d ▸ hev, d ▸ hnn, fun hc _ => ?_⟩
    rw [CurrentToken_concat l2 _ _ c] at hc
    exact absurd hc b
  | raise _ h1 h2 h3 h4 h5 h6 h7 =>
    refine ⟨h2 ▸ hev, h2 ▸ hnn, fun _ hg => ?_⟩
    rw [h5 hg, h2]
    exact_mod_cast hnn

/-- The `ReadToken` call of the constructor does not throw. -/
theorem new_does_not_throw (input : List Char) (e : LexerError) :
    (Lexer.start input).ReadToken.1 ≠ .error e := by
  intro he
  have hs := ReadToken_step (Lexer.start input) (Inv_start input)
  rw [he] at hs
  cases hs with
  | raise _ h1 h2 h3 h4 h5 h6 h7 =>
    have h0 : (Lexer.start input).CurrentToken = Token.Eof := rfl
    unfold Lexer.atLineStart at h3
    rw [h0] at h3
    rcases h3 with h | h <;> cases h

theorem level_concat (ts : List Token) (t : Token) :
    Lexer.level (ts ++ [t]) =
      Lexer.level ts + (if t = Token.Indent then 1 else 0) - (if t = Token.Dedent then 1 else 0) := by
  unfold Lexer.level
  rw [List.count_append, List.count_append]
  by_cases h1 : t = Token.Indent
  · subst h1; simp; omega
  · by_cases h2 : t = Token.Dedent
    · subst h2; simp; omega
    · have h1b : ¬ Token.Indent = t := fun h => h1 h.symm
      have h2b : ¬ Token.Dedent = t := fun h => h2 h.symm
      simp [h1, h2, List.count_cons, h1b, h2b]

theorem Lexer.Step.balanced {l l2 : Lexer} {res : Except LexerError Bool}
    (h : Lexer.Step l res l2) (hb : l.current_indent_ = 2 * Lexer.level l.tokens_) :
    l2.current_indent_ = 2 * Lexer.level l2.tokens_ := by
  cases h with
  | eof _ h1 h2 h3 => rw [h1, h2, hb]
  | indent _ h1 h2 h3 h4 =>
    rw [h1, h2, hb, level_concat]
    simp
    ring
  | dedent _ h1 h2 h3 h4 h5 h6 =>
    rw [h1, h2, hb, level_concat]
    simp
    ring
  | token _ h1 =>
    obtain ⟨t, a, b, b2, c, d, e⟩ := h1
    rw [c, d, hb, level_concat]
    simp [a, b]
  | raise _ h1 h2 h3 h4 h5 h6 h7 => rw [h1, h2, hb]

theorem getLast?_of_CurrentToken {l : Lexer} {t : Token} (h : l.CurrentToken = t)
    (ht : t ≠ Token.Eof) :
    0 < l.tokens_.length ∧ l.tokens_[l.tokens_.length - 1]? = some t := by
  cases l with
  | mk ts inp ci =>
    rcases List.eq_nil_or_concat ts with hnil | ⟨pre, a, rfl⟩
    · subst hnil
      simp [Lexer.CurrentToken] at h
      exact absurd h.symm ht
    · simp [Lexer.CurrentToken, Lexer.back] at h
      subst h
      simp

theorem Placed_concat (ts : List Token) (t : Token) (hp : Lexer.Placed ts)
    (hi : t = Token.Indent → 0 < ts.length ∧ ts[ts.length - 1]? = some Token.Newline)
    (hd : t = Token.Dedent → 0 < ts.length ∧
      (ts[ts.length - 1]? = some Token.Newline ∨ ts[ts.length - 1]? = some Token.Dedent)) :
    Lexer.Placed (ts ++ [t]) := by
  intro i
  rcases Nat.lt_trichotomy i ts.length with hlt | heq | hgt
  · have h1 : (ts ++ [t])[i]? = ts[i]? := List.getElem?_append_left hlt
    have h2 : (ts ++ [t])[i - 1]? = ts[i - 1]? :=
      List.getElem?_append_left (by omega)
    rw [h1, h2]
    exact hp i
  · subst heq
    have h1 : (ts ++ [t])[ts.length]? = some t := by simp
    rw [h1]
    constructor
    · intro h
      have ht := (Option.some.inj h)
      obtain ⟨hpos, hprev⟩ := hi ht
      have h2 : (ts ++ [t])[ts.length - 1]? = ts[ts.length - 1]? :=
        List.getElem?_append_left (by omega)
      rw [h2]
      exact ⟨hpos, hprev⟩
    · intro h
      have ht := (Option.some.inj h)
      obtain ⟨hpos, hprev⟩ := hd ht
      have h2 : (ts ++ [t])[ts.length - 1]? = ts[ts.length - 1]? :=
        List.getElem?_append_left (by omega)
      rw [h2]
      exact ⟨hpos, hprev⟩
  · have h1 : (ts ++ [t])[i]? = none := by
      apply List.getElem?_eq_none
      simp
      omega
    rw [h1]
    constructor <;> (intro h; cases h)

theorem Lexer.Step.placed {l l2 : Lexer} {res : Except LexerError Bool}
    (h : Lexer.Step l res l2) (hp : Lexer.Placed l.tokens_) : Lexer.Placed l2.tokens_ := by
  cases h with
  | eof _ h1 h2 h3 => rw [h1]; exact hp
  | indent _ h1 h2 h3 h4 =>
    rw [h1]
    refine Placed_concat _ _ hp (fun _ => getLast?_of_CurrentToken h3 (by decide))
      (fun h => by cases h)
  | dedent _ h1 h2 h3 h4 h5 h6 =>
    rw [h1]
    refine Placed_concat _ _ hp (fun h => by cases h) (fun _ => ?_)
    rcases h4 with h | h
    · exact ⟨(getLast?_of_CurrentToken h (by decide)).1,
        Or.inl (getLast?_of_CurrentToken h (by decide)).2⟩
    · exact ⟨(getLast?_of_CurrentToken h (by decide)).1,
        Or.inr (getLast?_of_CurrentToken h (by decide)).2⟩
  | token _ h1 =>
    obtain ⟨t, a, b, b2, c, d, e⟩ := h1
    rw [c]
    exact Placed_concat _ _ hp (fun h => absurd h a) (fun h => absurd h b)
  | raise _ h1 h2 h3 h4 h5 h6 h7 => rw [h1]; exact hp

/-- Every reachable state satisfies the indentation invariant, has
`current_indent_` equal to twice the number of `Indent` minus `Dedent` tokens
of its history, and has its indentation tokens placed after line ends. -/
theorem Lexer.Reachable.invariants {l : Lexer} (h : l.Reachable) :
    l.Inv ∧ l.current_indent_ = 2 * Lexer.level l.tokens_ ∧ Lexer.Placed l.tokens_ := by
  induction h with
  | init input =>
    have hs := ReadToken_step (Lexer.start input) (Inv_start input)
    refine ⟨hs.inv (Inv_start input), hs.balanced rfl, hs.placed ?_⟩
    intro i
    constructor <;> (intro h; simp [Lexer.start] at h)
  | next hl ih =>
    rename_i l0
    have hs := ReadToken_step l0 ih.1
    rw [NextToken_snd]
    exact ⟨hs.inv ih.1, hs.balanced ih.2.1, hs.placed ih.2.2⟩

theorem good_cons_of_peek {s : IStream} (h : s.peek.1 ≠ none) :
    ∃ c d, s = ⟨c :: d, false, false⟩ := by
  rw [Ne, IStream.peek_fst_none_iff] at h
  push_neg at h
  obtain ⟨c, d, hcd⟩ := List.exists_cons_of_ne_nil h.2
  have h2 := IStream.eq_of_good (s := s) (by simpa using h.1)
  rw [hcd] at h2
  exact ⟨c, d, h2⟩

theorem NextToken_error_iff (l : Lexer) (e : LexerError) :
    l.NextToken.1 = .error e ↔ l.ReadToken.1 = .error e := by
  rw [NextToken_fst]
  cases l.ReadToken.1 <;> simp

theorem Step_error {l l2 : Lexer} {e : LexerError} (h : Lexer.Step l (.error e) l2) :
    e = ⟨"Indents are not even"⟩ ∧ l2.tokens_ = l.tokens_ ∧
      l2.current_indent_ = l.current_indent_ ∧
      ((lead l.input_.data : Int) - l.current_indent_) % 2 = 1 := by
  cases h with
  | raise _ h1 h2 h3 h4 h5 h6 h7 => exact ⟨rfl, h1, h2, h7⟩

theorem ReadToken_raise_of_odd (l : Lexer) (c : Char) (d : List Char)
    (hin : l.input_ = ⟨c :: d, false, false⟩) (hls : l.atLineStart)
    (hodd : ((lead (c :: d) : Int) - l.current_indent_) % 2 = 1) :
    l.ReadToken = (.error ⟨"Indents are not even"⟩,
      { l with input_ := ⟨dropSpaces (c :: d), (dropSpaces (c :: d)).isEmpty, false⟩ }) := by
  have h := ReadToken_go_eq l 2 (le_refl _)
  rw [go_succ_good l c d hin 1, if_pos hls, if_neg (by omega), if_neg (by omega),
    if_neg (by omega)] at h
  exact (Option.some.inj h).symm

/-! ## The claims about the lexer -/

/-- C1: in every lexer state reachable from construction by any sequence of
`NextToken` calls on any input, `current_indent_` is even, non-negative, and
equal to twice the number of `Indent` tokens minus the number of `Dedent`
tokens of the token history. -/
theorem current_indent_even_nonneg_balanced (l : Lexer) (h : l.Reachable) :
    l.current_indent_ % 2 = 0 ∧ 0 ≤ l.current_indent_ ∧
      l.current_indent_
        = 2 * ((l.tokens_.count Token.Indent : Int) - (l.tokens_.count Token.Dedent : Int)) :=
  ⟨h.invariants.1.1, h.invariants.1.2.1, h.invariants.2.1⟩

/-- Witness of C1: the state after `Newline` and `Indent` on the input
`"a\n  b"`, where `current_indent_` is 2. -/
theorem current_indent_even_nonneg_balanced_witness :
    (Lexer.new "a\n  b".toList).NextToken.2.NextToken.2.Reachable ∧
      (Lexer.new "a\n  b".toList).NextToken.2.NextToken.2.current_indent_ = 2 ∧
      ((Lexer.new "a\n  b".toList).NextToken.2.NextToken.2.current_indent_ % 2 = 0 ∧
        0 ≤ (Lexer.new "a\n  b".toList).NextToken.2.NextToken.2.current_indent_ ∧
        (Lexer.new "a\n  b".toList).NextToken.2.NextToken.2.current_indent_
          = 2 * (((Lexer.new "a\n  b".toList).NextToken.2.NextToken.2.tokens_.count
                    Token.Indent : Int)
                - ((Lexer.new "a\n  b".toList).NextToken.2.NextToken.2.tokens_.count
                    Token.Dedent : Int))) :=
  ⟨.next (.next (.init _)), by decide,
    current_indent_even_nonneg_balanced _ (.next (.next (.init _)))⟩

/-- C2: in a reachable lexer state whose current token is `Newline` or `Dedent`
and whose input is not exhausted, `NextToken` throws `LexerError` if and only
if the number of leading spaces of the remaining input differs from
`current_indent_` by an odd amount; the error is "Indents are not even", and
when it is thrown no token is appended and `current_indent_` is unchanged. -/
theorem NextToken_raises_iff_odd_indent (l : Lexer) (hr : l.Reachable)
    (hcur : l.CurrentToken = Token.Newline ∨ l.CurrentToken = Token.Dedent)
    (hne : l.input_.peek.1 ≠ none) :
    ((∃ e, l.NextToken.1 = .error e)
        ↔ ((lead l.input_.data : Int) - l.current_indent_) % 2 = 1) ∧
      (∀ e, l.NextToken.1 = .error e →
        e = ⟨"Indents are not even"⟩ ∧ l.NextToken.2.tokens_ = l.tokens_ ∧
          l.NextToken.2.current_indent_ = l.current_indent_) := by
  have hs := ReadToken_step l hr.invariants.1
  obtain ⟨c, d, hin⟩ := good_cons_of_peek hne
  refine ⟨⟨?_, ?_⟩, ?_⟩
  · rintro ⟨e, he⟩
    rw [(NextToken_error_iff l e).1 he] at hs
    exact (Step_error hs).2.2.2
  · intro hodd
    rw [hin] at hodd
    have hrt := ReadToken_raise_of_odd l c d hin hcur hodd
    exact ⟨_, (NextToken_error_iff l _).2 (by rw [hrt])⟩
  · intro e he
    rw [(NextToken_error_iff l e).1 he] at hs
    rw [NextToken_snd]
    exact ⟨(Step_error hs).1, (Step_error hs).2.1, (Step_error hs).2.2.1⟩

/-- Witness of C2: after the first line of `"a\n b\n"` the current token is
`Newline`, one space is left against `current_indent_ = 0`, and the next call
throws. -/
theorem NextToken_raises_iff_odd_indent_witness :
    (Lexer.new "a\n b\n".toList).NextToken.2.Reachable ∧
      ((Lexer.new "a\n b\n".toList).NextToken.2.CurrentToken = Token.Newline ∨
        (Lexer.new "a\n b\n".toList).NextToken.2.CurrentToken = Token.Dedent) ∧
      (Lexer.new "a\n b\n".toList).NextToken.2.input_.peek.1 ≠ none ∧
      (Lexer.new "a\n b\n".toList).NextToken.2.NextToken.1
        = .error ⟨"Indents are not even"⟩ ∧
      (((∃ e, (Lexer.new "a\n b\n".toList).NextToken.2.NextToken.1 = .error e)
          ↔ ((lead (Lexer.new "a\n b\n".toList).NextToken.2.input_.data : Int)
              - (Lexer.new "a\n b\n".toList).NextToken.2.current_indent_) % 2 = 1) ∧
        (∀ e, (Lexer.new "a\n b\n".toList).NextToken.2.NextToken.1 = .error e →
          e = ⟨"Indents are not even"⟩ ∧
            (Lexer.new "a\n b\n".toList).NextToken.2.NextToken.2.tokens_
              = (Lexer.new "a\n b\n".toList).NextToken.2.tokens_ ∧
            (Lexer.new "a\n b\n".toList).NextToken.2.NextToken.2.current_indent_
              = (Lexer.new "a\n b\n".toList).NextToken.2.current_indent_)) :=
  ⟨.next (.init _), by decide, by decide, by decide,
    NextToken_raises_iff_odd_indent _ (.next (.init _)) (by decide) (by decide)⟩

/-- C3, evaluated on the input `"x"`: the first `NextToken` call after
construction returns `Eof`, but `CurrentToken` still reports `Id "x"`. -/
theorem NextToken_Eof_CurrentToken_Id :
    (Lexer.new "x".toList).NextToken.1 = .ok Token.Eof ∧
      (Lexer.new "x".toList).NextToken.2.CurrentToken = Token.Id "x" := by
  decide

theorem Lexer.Step.measure_lt {l l2 : Lexer} {res : Except LexerError Bool}
    (h : Lexer.Step l res l2) (hinv : l.Inv) (hne : res ≠ .ok false) :
    l2.measure < l.measure := by
  obtain ⟨hev, hnn, _⟩ := hinv
  unfold Lexer.measure
  cases h with
  | eof => exact absurd rfl hne
  | indent _ h1 h2 h3 h4 =>
    have ha : l.atLineStart := Or.inl h3
    have hb : ¬ l2.atLineStart := by
      unfold Lexer.atLineStart
      rw [CurrentToken_concat l2 _ _ h1]
      decide
    rw [if_pos ha, if_neg hb, h2]
    omega
  | dedent _ h1 h2 h3 h4 h5 h6 =>
    have hb : l2.atLineStart := by
      unfold Lexer.atLineStart
      rw [CurrentToken_concat l2 _ _ h1]
      decide
    rw [if_pos h4, if_pos hb, h2]
    omega
  | token _ h1 =>
    obtain ⟨t, a, b, b2, c, d, e⟩ := h1
    rw [d]
    split_ifs <;> omega
  | raise _ h1 h2 h3 h4 h5 h6 h7 =>
    have hb : l2.atLineStart := (atLineStart_congr h1).2 h3
    rw [if_pos h3, if_pos hb, h2]
    omega

theorem NextToken_of_not_good (l : Lexer) (h : l.input_.good = false) :
    l.NextToken.1 = .ok Token.Eof ∧ l.NextToken.2.input_.good = false := by
  have hp : l.input_.peek.1 = none := (IStream.peek_fst_none_iff _).2 (Or.inl h)
  have h2 := ReadToken_go_eq l 2 (le_refl _)
  rw [go_succ_dead l hp 1] at h2
  have h3 := (Option.some.inj h2).symm
  rw [NextToken_fst, NextToken_snd, h3]
  exact ⟨rfl, IStream.peek_snd_not_good hp⟩

theorem back_concat (l : Lexer) (ts : List Token) (t : Token) (h : l.tokens_ = ts ++ [t]) :
    l.back = t := by
  simp [Lexer.back, h]

theorem Step_of_NextToken_Eof {l l2 : Lexer} {res : Except LexerError Bool}
    (hs : Lexer.Step l res l2) (hne : ∀ e, res ≠ .error e)
    (h : ∀ b, res = .ok b → (if b = true then l2.back else Token.Eof) = Token.Eof) :
    res = .ok false ∧ l2.input_.good = false := by
  cases hs with
  | eof _ h1 h2 h3 => exact ⟨rfl, h3⟩
  | indent _ h1 h2 h3 h4 =>
    have := h true rfl
    rw [back_concat l2 _ _ h1] at this
    simp at this
  | dedent _ h1 h2 h3 h4 h5 h6 =>
    have := h true rfl
    rw [back_concat l2 _ _ h1] at this
    simp at this
  | token _ h1 =>
    obtain ⟨t, a, b, b2, c, d, e⟩ := h1
    have := h true rfl
    rw [back_concat l2 _ _ c] at this
    simp at this
    exact absurd this b2
  | raise => exact absurd rfl (hne _)

theorem NextToken_Eof_not_good (l : Lexer) (hinv : l.Inv) (h : l.NextToken.1 = .ok Token.Eof) :
    l.ReadToken.1 = .ok false ∧ l.NextToken.2.input_.good = false := by
  rw [NextToken_fst] at h
  rw [NextToken_snd]
  refine Step_of_NextToken_Eof (ReadToken_step l hinv) ?_ ?_
  · intro e he
    rw [he] at h
    cases h
  · intro b hb
    rw [hb] at h
    exact Except.ok.inj h

theorem after_succ (n : Nat) (l : Lexer) :
    Lexer.after (n + 1) l = (Lexer.after n l).NextToken.2 := by
  induction n generalizing l with
  | zero => rfl
  | succ n ih =>
    rw [Lexer.after, ih]
    rfl

theorem Reachable_after (n : Nat) {l : Lexer} (h : l.Reachable) : (Lexer.after n l).Reachable := by
  induction n with
  | zero => exact h
  | succ n ih =>
    rw [after_succ]
    exact .next ih

theorem exists_Eof (k : Nat) :
    ∀ l : Lexer, l.Inv → l.measure ≤ k → ∃ n, (Lexer.after n l).NextToken.1 = .ok Token.Eof := by
  induction k with
  | zero =>
    intro l hinv hm
    have hs := ReadToken_step l hinv
    by_cases hres : l.ReadToken.1 = .ok false
    · exact ⟨0, by rw [Lexer.after, NextToken_fst, hres]; rfl⟩
    · have := hs.measure_lt hinv hres
      omega
  | succ k ih =>
    intro l hinv hm
    have hs := ReadToken_step l hinv
    by_cases hres : l.ReadToken.1 = .ok false
    · exact ⟨0, by rw [Lexer.after, NextToken_fst, hres]; rfl⟩
    · have hlt := hs.measure_lt hinv hres
      obtain ⟨n, hn⟩ := ih l.ReadToken.2 (hs.inv hinv) (by omega)
      refine ⟨n + 1, ?_⟩
      rw [Lexer.after, NextToken_snd]
      exact hn

/-- C4: for every input, the recursion of `ReadToken` returns in every state
of the lexer (a depth of two suffices), some `NextToken` call returns `Eof`,
and every call made after one that returned `Eof` returns `Eof` as well. -/
theorem NextToken_eventually_Eof_forever (input : List Char) :
    (∀ n fuel, 2 ≤ fuel →
      Lexer.ReadToken.go fuel (Lexer.after n (Lexer.new input))
        = some (Lexer.after n (Lexer.new input)).ReadToken) ∧
    (∃ n, (Lexer.after n (Lexer.new input)).NextToken.1 = .ok Token.Eof) ∧
    (∀ n, (Lexer.after n (Lexer.new input)).NextToken.1 = .ok Token.Eof →
      ∀ m, n ≤ m → (Lexer.after m (Lexer.new input)).NextToken.1 = .ok Token.Eof) := by
  refine ⟨fun n fuel h => ReadToken_go_eq _ fuel h, ?_, ?_⟩
  · exact exists_Eof _ _ (Lexer.Reachable.init input).invariants.1 (le_refl _)
  · intro n hn m hm
    induction m, hm using Nat.le_induction with
    | base => exact hn
    | succ m _ ih =>
      have hinv := (Reachable_after m (Lexer.Reachable.init input)).invariants.1
      rw [after_succ]
      exact (NextToken_of_not_good _ (NextToken_Eof_not_good _ hinv ih).2).1

/-- C5 as stated fails: on the input `"a\n  b\n    c\nd\n"` the history after
nine `NextToken` calls ends with two `Dedent` tokens, and the second one is
neither first nor preceded by a `Newline`. -/
theorem Dedent_directly_after_Dedent :
    ¬ (∀ i : Nat,
        ((Lexer.after 9 (Lexer.new "a\n  b\n    c\nd\n".toList)).tokens_[i]?
            = some Token.Indent ∨
          (Lexer.after 9 (Lexer.new "a\n  b\n    c\nd\n".toList)).tokens_[i]?
            = some Token.Dedent) →
        i = 0 ∨
          (Lexer.after 9 (Lexer.new "a\n  b\n    c\nd\n".toList)).tokens_[i - 1]?
            = some Token.Newline) := by
  intro h
  have h9 := h 9 (by decide)
  revert h9
  decide

/-- C5, amended: in every reachable state, every `Indent` of the token history
is the first token or directly follows a `Newline`, and every `Dedent` is the
first token or directly follows a `Newline` or another `Dedent`. -/
theorem Indent_Dedent_placement (l : Lexer) (h : l.Reachable) (i : Nat) :
    (l.tokens_[i]? = some Token.Indent →
      i = 0 ∨ l.tokens_[i - 1]? = some Token.Newline) ∧
    (l.tokens_[i]? = some Token.Dedent →
      i = 0 ∨ l.tokens_[i - 1]? = some Token.Newline
        ∨ l.tokens_[i - 1]? = some Token.Dedent) :=
  ⟨fun hi => Or.inr ((h.invariants.2.2 i).1 hi).2,
    fun hd => Or.inr ((h.invariants.2.2 i).2 hd).2⟩

/-- Witness of the amended C5: the second of the two consecutive `Dedent`
tokens (index 9) of the history of `"a\n  b\n    c\nd\n"`. -/
theorem Indent_Dedent_placement_witness :
    (Lexer.after 9 (Lexer.new "a\n  b\n    c\nd\n".toList)).Reachable ∧
      (Lexer.after 9 (Lexer.new "a\n  b\n    c\nd\n".toList)).tokens_[9]?
        = some Token.Dedent ∧
      (Lexer.after 9 (Lexer.new "a\n  b\n    c\nd\n".toList)).tokens_[8]?
        = some Token.Dedent ∧
      (((Lexer.after 9 (Lexer.new "a\n  b\n    c\nd\n".toList)).tokens_[9]?
          = some Token.Indent →
        9 = 0 ∨ (Lexer.after 9 (Lexer.new "a\n  b\n    c\nd\n".toList)).tokens_[9 - 1]?
          = some Token.Newline) ∧
      ((Lexer.after 9 (Lexer.new "a\n  b\n    c\nd\n".toList)).tokens_[9]?
          = some Token.Dedent →
        9 = 0 ∨ (Lexer.after 9 (Lexer.new "a\n  b\n    c\nd\n".toList)).tokens_[9 - 1]?
            = some Token.Newline
          ∨ (Lexer.after 9 (Lexer.new "a\n  b\n    c\nd\n".toList)).tokens_[9 - 1]?
            = some Token.Dedent)) :=
  ⟨Reachable_after 9 (.init _), by decide, by decide,
    Indent_Dedent_placement _ (Reachable_after 9 (.init _)) 9⟩

/-- C6, evaluated: `input_ >> next` skips white space.  On `"x =\ny"` the byte
after `=` is a line feed; the call that lexes `=` consumes it (only `y` is
left), so the calls return `Char '='`, `Id "y"`, `Eof` and no `Newline`.  On
`"< ="` the byte after `<` is a space, yet the single token `LessOrEq` is
produced. -/
theorem AddDoubleChar_consumes_white_space :
    (Lexer.run 3 (Lexer.new "x =\ny".toList)).1
        = [.ok (Token.Char '='), .ok (Token.Id "y"), .ok Token.Eof] ∧
      (Lexer.after 1 (Lexer.new "x =\ny".toList)).input_.data = ['y'] ∧
      (Lexer.new "< =".toList).tokens_ = [Token.LessOrEq] ∧
      (Lexer.new "< =".toList).NextToken.1 = .ok Token.Eof := by
  decide

theorem not_space_of_alpha (c : Char) (h : isalpha c = true ∨ c = '_') :
    c ≠ ' ' ∧ c ≠ '\n' := by
  have h1 : ('a' : Char).toNat = 97 := by decide
  have h2 : ('z' : Char).toNat = 122 := by decide
  have h3 : ('A' : Char).toNat = 65 := by decide
  have h4 : ('Z' : Char).toNat = 90 := by decide
  have h5 : (' ' : Char).toNat = 32 := by decide
  have h6 : ('\n' : Char).toNat = 10 := by decide
  have h7 : ('_' : Char).toNat = 95 := by decide
  simp only [isalpha, decide_eq_true_eq, char_le_iff, char_eq_iff c, Ne] at *
  omega

/-- At the dispatch position (no indentation token is due) on a good stream
whose next byte is not a space, `ReadToken` is its dispatch. -/
theorem go_at_dispatch (l : Lexer) (c : Char) (d : List Char)
    (hin : l.input_ = ⟨c :: d, false, false⟩) (hc : c ≠ ' ')
    (hpos : ¬ l.atLineStart ∨ l.current_indent_ = 0) (f : Nat) :
    Lexer.ReadToken.go (f + 1) l = Lexer.ReadToken.dispatch (Lexer.ReadToken.go f) l := by
  rw [go_succ_good l c d hin f]
  by_cases hls : l.atLineStart
  · have h0 : l.current_indent_ = 0 := by
      rcases hpos with h | h
      · exact absurd hls h
      · exact h
    have hl : lead (c :: d) = 0 := by simp [lead, hc]
    have hd : dropSpaces (c :: d) = c :: d := by simp [dropSpaces, hc]
    rw [if_pos hls, if_pos (by rw [hl, h0]; rfl), hd]
    cases l with
    | mk ts inp ci =>
      simp only at hin
      subst hin
      rfl
  · rw [if_neg hls]

theorem NextToken_of_dispatch (l l2 : Lexer) (c : Char) (d : List Char) (t : Token)
    (hin : l.input_ = ⟨c :: d, false, false⟩) (hc : c ≠ ' ')
    (hpos : ¬ l.atLineStart ∨ l.current_indent_ = 0)
    (hd : ∀ again, Lexer.ReadToken.dispatch again l = some (.ok true, l2))
    (ht : l2.tokens_ = l.tokens_ ++ [t]) :
    l.NextToken = (.ok t, l2) := by
  have h := ReadToken_go_eq l 2 (le_refl _)
  rw [go_at_dispatch l c d hin hc hpos 1, hd] at h
  have h2 := (Option.some.inj h).symm
  unfold Lexer.NextToken
  rw [h2]
  simp [Lexer.back, ht]

theorem dispatch_alpha (l : Lexer) (c : Char) (d : List Char)
    (hin : l.input_ = ⟨c :: d, false, false⟩) (hc : isalpha c = true ∨ c = '_') :
    ∀ again, Lexer.ReadToken.dispatch again l = some (.ok true, l.AddKeywordOrId) := by
  intro again
  cases l with
  | mk ts inp ci =>
    simp only at hin
    subst hin
    have hn := (not_space_of_alpha c hc).2
    simp only [Lexer.ReadToken.dispatch, IStream.peek_of_good, toChar, hn, and_false,
      if_false, if_pos hc]

theorem span_run (p : Char → Bool) (w rest : List Char) (hw : ∀ x ∈ w, p x = true)
    (hrest : ∀ x ∈ rest.head?, p x = false) :
    (w ++ rest).takeWhile p = w ∧ (w ++ rest).dropWhile p = rest := by
  rw [List.takeWhile_append_of_pos hw, List.dropWhile_append_of_pos hw]
  cases rest with
  | nil => simp
  | cons x r =>
    have hx : p x = false := hrest x (by simp)
    simp [List.takeWhile_cons, List.dropWhile_cons, hx]

theorem lookup_cons_ne (k a : String) (b : Token) (r : List (String × Token)) (h : k ≠ a) :
    List.lookup k ((a, b) :: r) = List.lookup k r := by
  have hb : (k == a) = false := by simpa using h
  rw [List.lookup, hb]

/-- The `if` chain of `AddKeywordOrId` implements the table of reserved words. -/
theorem keywordToken_eq_lookup (k : String) :
    Lexer.keywordToken k = (Lexer.reservedWords.lookup k).getD (Token.Id k) := by
  by_cases h1 : k = "class"
  · subst h1; decide
  by_cases h2 : k = "return"
  · subst h2; decide
  by_cases h3 : k = "if"
  · subst h3; decide
  by_cases h4 : k = "else"
  · subst h4; decide
  by_cases h5 : k = "def"
  · subst h5; decide
  by_cases h6 : k = "print"
  · subst h6; decide
  by_cases h7 : k = "and"
  · subst h7; decide
  by_cases h8 : k = "or"
  · subst h8; decide
  by_cases h9 : k = "not"
  · subst h9; decide
  by_cases h10 : k = "True"
  · subst h10; decide
  by_cases h11 : k = "False"
  · subst h11; decide
  by_cases h12 : k = "None"
  · subst h12; decide
  unfold Lexer.keywordToken Lexer.reservedWords
  rw [if_neg h1, if_neg h3, if_neg h4, if_neg h8, if_neg h7, if_neg h9, if_neg h10,
    if_neg h11, if_neg h12, if_neg h2, if_neg h5, if_neg h6,
    lookup_cons_ne _ _ _ _ h1, lookup_cons_ne _ _ _ _ h2, lookup_cons_ne _ _ _ _ h3,
    lookup_cons_ne _ _ _ _ h4, lookup_cons_ne _ _ _ _ h5, lookup_cons_ne _ _ _ _ h6,
    lookup_cons_ne _ _ _ _ h7, lookup_cons_ne _ _ _ _ h8, lookup_cons_ne _ _ _ _ h9,
    lookup_cons_ne _ _ _ _ h10, lookup_cons_ne _ _ _ _ h11, lookup_cons_ne _ _ _ _ h12]
  rfl

/-- C7: when the next byte `c` is an ASCII letter or `_` and `c :: w` is the
maximal run of bytes in `[A-Za-z0-9_]` (every byte of `w` is in the class, and
`rest` is empty or starts with a byte outside it), the dispatch of `ReadToken`
consumes exactly the run and leaves `rest` in the input, and the token it
appends is the reserved word's token when the run is one of the twelve
reserved words and `Id` of the run otherwise; `NextToken` returns that token
whenever it reaches the dispatch with this input (no indentation token is
due). -/
theorem NextToken_keyword_or_id (l : Lexer) (c : Char) (w rest : List Char)
    (hin : l.input_ = ⟨c :: w ++ rest, false, false⟩)
    (hc : isalpha c = true ∨ c = '_')
    (hw : ∀ x ∈ w, isword x = true)
    (hrest : ∀ x ∈ rest.head?, isword x = false) :
    (∀ again, Lexer.ReadToken.dispatch again l =
      some (.ok true,
        { l with tokens_ := l.tokens_
                   ++ [(Lexer.reservedWords.lookup (String.mk (c :: w))).getD
                        (Token.Id (String.mk (c :: w)))],
                 input_ := IStream.resume rest })) ∧
    ((¬ l.atLineStart ∨ l.current_indent_ = 0) →
      l.NextToken =
        (.ok ((Lexer.reservedWords.lookup (String.mk (c :: w))).getD
                (Token.Id (String.mk (c :: w)))),
          { l with tokens_ := l.tokens_
                     ++ [(Lexer.reservedWords.lookup (String.mk (c :: w))).getD
                          (Token.Id (String.mk (c :: w)))],
                   input_ := IStream.resume rest })) := by
  have hcw : ∀ x ∈ c :: w, isword x = true := by
    intro x hx
    rcases List.mem_cons.1 hx with rfl | hx
    · exact isword_of_alpha _ hc
    · exact hw x hx
  have hspan := span_run isword (c :: w) rest hcw hrest
  have hk := AddKeywordOrId_eq l (c :: w ++ rest) hin
  rw [show (c :: w ++ rest) = (c :: w) ++ rest from rfl, hspan.1, hspan.2,
    keywordToken_eq_lookup] at hk
  rw [← hk]
  refine ⟨dispatch_alpha l c (w ++ rest) hin hc, fun hpos => ?_⟩
  refine NextToken_of_dispatch l _ c (w ++ rest) _ hin (not_space_of_alpha c hc).1 hpos
    (dispatch_alpha l c (w ++ rest) hin hc) ?_
  rw [hk]

/-- Witness of C7: after the `(` of `"(classy("` the lexer returns
`Id "classy"` and leaves `"("`. -/
theorem NextToken_keyword_or_id_witness :
    (Lexer.new "(classy(".toList).input_
        = ⟨'c' :: "lassy".toList ++ "(".toList, false, false⟩ ∧
      (isalpha 'c' = true ∨ 'c' = '_') ∧
      (∀ x ∈ "lassy".toList, isword x = true) ∧
      (∀ x ∈ "(".toList.head?, isword x = false) ∧
      (¬ (Lexer.new "(classy(".toList).atLineStart
        ∨ (Lexer.new "(classy(".toList).current_indent_ = 0) ∧
      (Lexer.new "(classy(".toList).NextToken =
        (.ok (Token.Id "classy"),
          { tokens_ := [Token.Char '(', Token.Id "classy"],
            input_ := ⟨['('], false, false⟩, current_indent_ := 0 }) :=
  ⟨by decide, by decide, by decide, by decide, by decide,
    (NextToken_keyword_or_id (Lexer.new "(classy(".toList) 'c' "lassy".toList "(".toList
      (by decide) (by decide) (by decide) (by decide)).2 (by decide)⟩

theorem dispatch_quote (l : Lexer) (q : Char) (d : List Char)
    (hin : l.input_ = ⟨q :: d, false, false⟩) (hq : q = '\'' ∨ q = '"') :
    ∀ again, Lexer.ReadToken.dispatch again l = some (.ok true, l.AddString) := by
  intro again
  cases l with
  | mk ts inp ci =>
    simp only at hin
    subst hin
    have h1 : ¬ (q = '\n') := by rcases hq with rfl | rfl <;> decide
    have h2 : ¬ (isalpha q = true ∨ q = '_') := by rcases hq with rfl | rfl <;> decide
    have h3 : ¬ (isdigit q = true) := by rcases hq with rfl | rfl <;> decide
    simp only [Lexer.ReadToken.dispatch, IStream.peek_of_good, toChar, h1, and_false,
      if_false, if_neg h2, if_neg h3, if_pos hq]

/-- C8: for a quote `q` (single or double) and a byte string `s` that does
not contain `q`, the dispatch of `ReadToken` on `q s q` appends `String s`,
with `s` unchanged, and consumes the input exactly through the closing quote;
`NextToken` returns that token whenever it reaches the dispatch with this
input (no indentation token is due). -/
theorem NextToken_string_literal (l : Lexer) (q : Char) (s rest : List Char)
    (hq : q = '\'' ∨ q = '"') (hs : q ∉ s)
    (hin : l.input_ = ⟨q :: s ++ q :: rest, false, false⟩) :
    (∀ again, Lexer.ReadToken.dispatch again l =
      some (.ok true,
        { l with tokens_ := l.tokens_ ++ [Token.String (String.mk s)],
                 input_ := ⟨rest, false, false⟩ })) ∧
    ((¬ l.atLineStart ∨ l.current_indent_ = 0) →
      l.NextToken =
        (.ok (Token.String (String.mk s)),
          { l with tokens_ := l.tokens_ ++ [Token.String (String.mk s)],
                   input_ := ⟨rest, false, false⟩ })) := by
  have hw : ∀ x ∈ s, (fun c => decide (c ≠ q)) x = true := by
    intro x hx
    have : x ≠ q := fun h => hs (h ▸ hx)
    simpa using this
  have hr : ∀ x ∈ (q :: rest).head?, (fun c => decide (c ≠ q)) x = false := by
    intro x hx
    simp at hx
    simp [hx]
  have hspan := span_run (fun c => decide (c ≠ q)) s (q :: rest) hw hr
  have hk := AddString_eq l q (s ++ q :: rest) hq hin
  rw [hspan.1, hspan.2] at hk
  have hne : q ≠ ' ' := by rcases hq with rfl | rfl <;> decide
  rw [← hk]
  refine ⟨dispatch_quote l q (s ++ q :: rest) hin hq, fun hpos => ?_⟩
  refine NextToken_of_dispatch l _ q (s ++ q :: rest) _ hin hne hpos
    (dispatch_quote l q (s ++ q :: rest) hin hq) ?_
  rw [hk]

/-- Witness of C8: after the `(` of `"('he\"llo')"` the lexer returns the
string `he"llo` (the other quote is kept) and leaves `")"`. -/
theorem NextToken_string_literal_witness :
    ('\'' = '\'' ∨ '\'' = '"') ∧ '\'' ∉ "he\"llo".toList ∧
      (Lexer.new "('he\"llo')".toList).input_
        = ⟨'\'' :: "he\"llo".toList ++ '\'' :: ")".toList, false, false⟩ ∧
      (¬ (Lexer.new "('he\"llo')".toList).atLineStart
        ∨ (Lexer.new "('he\"llo')".toList).current_indent_ = 0) ∧
      (Lexer.new "('he\"llo')".toList).NextToken =
        (.ok (Token.String "he\"llo"),
          { tokens_ := [Token.Char '(', Token.String "he\"llo"],
            input_ := ⟨[')'], false, false⟩, current_indent_ := 0 }) :=
  ⟨by decide, by decide, by decide, by decide,
    (NextToken_string_literal (Lexer.new "('he\"llo')".toList) '\'' "he\"llo".toList
      ")".toList (by decide) (by decide) (by decide)).2 (by decide)⟩

/-! ## The claims about the comparison of runtime values -/

/-- The order of `std::string::compare` is the lexicographic order on bytes. -/
theorem stringCompare_neg_iff (a : List Char) :
    ∀ b : List Char, stringCompare a b < 0 ↔ List.Lex (fun x y : Char => x < y) a b := by
  induction a with
  | nil =>
    intro b
    cases b with
    | nil =>
      simp only [stringCompare, lt_self_iff_false, false_iff]
      intro h
      cases h
    | cons y ys =>
      simp only [stringCompare]
      exact ⟨fun _ => List.Lex.nil, fun _ => by decide⟩
  | cons x xs ih =>
    intro b
    cases b with
    | nil =>
      simp only [stringCompare]
      constructor
      · intro h; exact absurd h (by decide)
      · intro h; cases h
    | cons y ys =>
      by_cases h1 : x < y
      · simp only [stringCompare, if_pos h1]
        exact ⟨fun _ => List.Lex.rel h1, fun _ => by decide⟩
      · by_cases h2 : y < x
        · simp only [stringCompare, if_neg h1, if_pos h2]
          constructor
          · intro h; exact absurd h (by decide)
          · intro h
            cases h with
            | cons _ => exact absurd h2 (lt_irrefl _)
            | rel h => exact absurd h h1
        · have hxy : x = y := le_antisymm (not_lt.1 h2) (not_lt.1 h1)
          subst hxy
          simp only [stringCompare, if_neg h1]
          constructor
          · intro h; exact List.Lex.cons ((ih ys).1 h)
          · intro h
            cases h with
            | cons h => exact (ih ys).2 h
            | rel h => exact absurd h h1

/-- C9: `Equal` follows its rules in order: two `Number`s compare as
integers, two `String`s as byte strings, two `Bool`s as booleans; a
`ClassInstance` on the left whose class has (itself or through an ancestor)
`__eq__` with one parameter delegates to `Call` with `rhs`, whatever `rhs` is,
and returns the `Bool` payload of the result; two empty holders are equal; and
in every other case the runtime error "Cannot compare objects for equality"
is thrown. -/
theorem Equal_rules (Execute : Evaluator) (lhs rhs : ObjectHolder) (context : State) :
    (∀ a b, lhs = some (.Number a) → rhs = some (.Number b) →
      Equal Execute lhs rhs context = (.ok (decide (a = b)), context)) ∧
    (∀ a b, lhs = some (.String a) → rhs = some (.String b) →
      Equal Execute lhs rhs context = (.ok (decide (a = b)), context)) ∧
    (∀ a b, lhs = some (.Bool a) → rhs = some (.Bool b) →
      Equal Execute lhs rhs context = (.ok (decide (a = b)), context)) ∧
    (∀ class_ address, lhs = some (.ClassInstance class_ address) →
      ClassInstance.HasMethod class_ "__eq__" 1 = true →
      ∀ b context2,
        ClassInstance.Call Execute class_ address "__eq__" [rhs] context
            = (.ok (some (.Bool b)), context2) →
        Equal Execute lhs rhs context = (.ok b, context2)) ∧
    (lhs = none → rhs = none → Equal Execute lhs rhs context = (.ok true, context)) ∧
    ((¬ ∃ a b, lhs = some (.Number a) ∧ rhs = some (.Number b)) →
      (¬ ∃ a b, lhs = some (.String a) ∧ rhs = some (.String b)) →
      (¬ ∃ a b, lhs = some (.Bool a) ∧ rhs = some (.Bool b)) →
      (¬ ∃ class_ address, lhs = some (.ClassInstance class_ address) ∧
          ClassInstance.HasMethod class_ "__eq__" 1 = true) →
      ¬ (lhs = none ∧ rhs = none) →
      Equal Execute lhs rhs context
        = (.error (.runtime_error "Cannot compare objects for equality"), context)) := by
  refine ⟨?_, ?_, ?_, ?_, ?_, ?_⟩
  · rintro a b rfl rfl
    rfl
  · rintro a b rfl rfl
    rfl
  · rintro a b rfl rfl
    rfl
  · rintro class_ address rfl hm b context2 hcall
    rcases rhs with _ | (v | v | v | v | v | ⟨c2, f2⟩) <;>
      simp [Equal, ObjectHolder.TryAsNumber, ObjectHolder.TryAsString,
        ObjectHolder.TryAsBool, ObjectHolder.TryAsClassInstance, hm, hcall, boolResult]
  · rintro rfl rfl
    rfl
  · intro h1 h2 h3 h4 h5
    rcases lhs with _ | (a | a | a | a | a | ⟨c1, f1⟩) <;>
      rcases rhs with _ | (b | b | b | b | b | ⟨c2, f2⟩) <;>
      simp [Equal, ObjectHolder.TryAsNumber, ObjectHolder.TryAsString,
        ObjectHolder.TryAsBool, ObjectHolder.TryAsClassInstance] at h1 h2 h3 h4 h5 ⊢ <;>
      simp [h4]

/-- Witness of C9 (scenario S5): class `C` inherits `__eq__(other)` from its
parent `P`, the body returns `Bool true`; an instance of `C` equals the number
3. -/
theorem Equal_rules_witness :
    ClassInstance.HasMethod
        (Class.mk "C" [] (some (Class.mk "P" [⟨"__eq__", ["other"], ⟨0⟩⟩] none)))
        "__eq__" 1 = true ∧
      Equal (fun _ _ ctx => (.ok (some (.Bool true)), ctx))
        (some (.ClassInstance
          (Class.mk "C" [] (some (Class.mk "P" [⟨"__eq__", ["other"], ⟨0⟩⟩] none))) 0))
        (some (.Number 3)) State.initial = (.ok true, State.initial) :=
  ⟨by decide,
    (Equal_rules (fun _ _ ctx => (.ok (some (.Bool true)), ctx))
      (some (.ClassInstance
        (Class.mk "C" [] (some (Class.mk "P" [⟨"__eq__", ["other"], ⟨0⟩⟩] none))) 0))
      (some (.Number 3)) State.initial).2.2.2.1 _ _ rfl (by decide) true State.initial rfl⟩

theorem bool_lt_eq (a b : Bool) : decide (a < b) = (!a && b) := by
  cases a <;> cases b <;> decide

/-- C10: `Less` compares two `Number`s as integers, two `String`s in the
lexicographic order of their bytes, two `Bool`s with `false < true`; a
`ClassInstance` on the left whose class has `__lt__` with one parameter
delegates to `Call` with `rhs` and returns the `Bool` payload of the result;
in every other case, two empty holders and operands of different primitive
types included, the runtime error "Cannot compare objects for less" is
thrown. -/
theorem Less_rules (Execute : Evaluator) (lhs rhs : ObjectHolder) (context : State) :
    (∀ a b, lhs = some (.Number a) → rhs = some (.Number b) →
      Less Execute lhs rhs context = (.ok (decide (a < b)), context)) ∧
    (∀ a b, lhs = some (.String a) → rhs = some (.String b) →
      Less Execute lhs rhs context
        = (.ok (decide (List.Lex (fun x y : Char => x < y) a.data b.data)), context)) ∧
    (∀ a b, lhs = some (.Bool a) → rhs = some (.Bool b) →
      Less Execute lhs rhs context = (.ok (!a && b), context)) ∧
    (∀ class_ address, lhs = some (.ClassInstance class_ address) →
      ClassInstance.HasMethod class_ "__lt__" 1 = true →
      ∀ b context2,
        ClassInstance.Call Execute class_ address "__lt__" [rhs] context
            = (.ok (some (.Bool b)), context2) →
        Less Execute lhs rhs context = (.ok b, context2)) ∧
    ((¬ ∃ a b, lhs = some (.Number a) ∧ rhs = some (.Number b)) →
      (¬ ∃ a b, lhs = some (.String a) ∧ rhs = some (.String b)) →
      (¬ ∃ a b, lhs = some (.Bool a) ∧ rhs = some (.Bool b)) →
      (¬ ∃ class_ address, lhs = some (.ClassInstance class_ address) ∧
          ClassInstance.HasMethod class_ "__lt__" 1 = true) →
      Less Execute lhs rhs context
        = (.error (.runtime_error "Cannot compare objects for less"), context)) := by
  refine ⟨?_, ?_, ?_, ?_, ?_⟩
  · rintro a b rfl rfl
    rfl
  · rintro a b rfl rfl
    have h : decide (stringCompare a.data b.data < 0)
        = decide (List.Lex (fun x y : Char => x < y) a.data b.data) :=
      decide_eq_decide.2 (stringCompare_neg_iff a.data b.data)
    simp only [Less, ObjectHolder.TryAsNumber, ObjectHolder.TryAsString, h]
  · rintro a b rfl rfl
    simp only [Less, ObjectHolder.TryAsNumber, ObjectHolder.TryAsString,
      ObjectHolder.TryAsBool, bool_lt_eq]
  · rintro class_ address rfl hm b context2 hcall
    rcases rhs with _ | (v | v | v | v | v | ⟨c2, f2⟩) <;>
      simp [Less, ObjectHolder.TryAsNumber, ObjectHolder.TryAsString,
        ObjectHolder.TryAsBool, ObjectHolder.TryAsClassInstance, hm, hcall, boolResult]
  · intro h1 h2 h3 h4
    rcases lhs with _ | (a | a | a | a | a | ⟨c1, f1⟩) <;>
      rcases rhs with _ | (b | b | b | b | b | ⟨c2, f2⟩) <;>
      simp [Less, ObjectHolder.TryAsNumber, ObjectHolder.TryAsString,
        ObjectHolder.TryAsBool, ObjectHolder.TryAsClassInstance] at h1 h2 h3 h4 ⊢ <;>
      simp [h4]

/-- Witness of C10 (scenario S6): `"ab" < "ac"` holds. -/
theorem Less_rules_witness :
    Less (fun _ _ ctx => (.ok none, ctx)) (some (.String "ab")) (some (.String "ac")) State.initial
      = (.ok true, State.initial) :=
  (Less_rules (fun _ _ ctx => (.ok none, ctx)) (some (.String "ab")) (some (.String "ac"))
    State.initial).2.1 "ab" "ac" rfl rfl

/-! ## The claims about tokens and the `Expect` helpers -/

/-- C18: `Expect<T>()` throws `LexerError` if and only if the current token
is not the alternative `T`, and otherwise returns the current token;
`Expect<T>(value)` throws if and only if the current token is not the
alternative `T` or its payload differs from `value`; neither changes the
lexer (token history, `current_indent_`, input). -/
theorem Expect_checks_current_token (T : Nat) (value : TokenValue) (l : Lexer) :
    ((∃ e, (l.Expect T).1 = .error e) ↔ l.CurrentToken.index ≠ T) ∧
    (l.CurrentToken.index = T → (l.Expect T).1 = .ok l.CurrentToken) ∧
    ((∃ e, (l.ExpectValue T value).1 = .error e)
      ↔ (l.CurrentToken.index ≠ T ∨ l.CurrentToken.value ≠ some value)) ∧
    (l.Expect T).2 = l ∧ (l.ExpectValue T value).2 = l := by
  by_cases h : l.CurrentToken.index = T
  · by_cases hv : l.CurrentToken.value = some value
    · simp [Lexer.Expect, Lexer.ExpectValue, h, hv]
    · simp [Lexer.Expect, Lexer.ExpectValue, h, hv]
  · simp [Lexer.Expect, Lexer.ExpectValue, h]

/-- Witness of C18: on `"x = 5"` the current token after construction is
`Id "x"` (alternative 1); `Expect<Id>()` returns it, and `Expect<Id>("y")`
throws because the payload differs. -/
theorem Expect_checks_current_token_witness :
    (Lexer.new "x = 5".toList).CurrentToken.index = 1 ∧
      ((Lexer.new "x = 5".toList).Expect 1).1 = .ok (Token.Id "x") ∧
      ∃ e, ((Lexer.new "x = 5".toList).ExpectValue 1 (.string "y")).1 = .error e :=
  ⟨by decide,
    (Expect_checks_current_token 1 (.string "x") (Lexer.new "x = 5".toList)).2.1 (by decide),
    (Expect_checks_current_token 1 (.string "y") (Lexer.new "x = 5".toList)).2.2.1.2
      (Or.inr (by decide))⟩

/-- C19: `a == b` holds if and only if `a` and `b` are the same alternative
and, for the value-bearing alternatives `Number`, `Id`, `Char`, `String`
(indices 0 to 3), their payloads are equal, that is, if and only if they are
the same token; `a != b` is the negation of `a == b`. -/
theorem Token_operatorEq_iff (a b : Token) :
    (a.operatorEq b = true ↔ a.index = b.index ∧ (a.index < 4 → a.value = b.value)) ∧
    (a.operatorEq b = true ↔ a = b) ∧
    a.operatorNe b = !a.operatorEq b := by
  refine ⟨?_, ?_, rfl⟩
  · cases a <;> cases b <;> simp [Token.operatorEq, Token.index, Token.value]
  · cases a <;> cases b <;> simp [Token.operatorEq, Token.index, Token.value]

/-- C20, evaluated: the line `"    b"` follows a `Newline` with four leading
spaces against `current_indent_ = 0`, two levels deeper.  Only one `Indent`
is delivered before `Id "b"` and `current_indent_` is 2 when it is emitted;
the next line, indented like the previous one, gets a further `Indent`. -/
theorem one_Indent_for_a_jump_of_two_levels :
    lead (Lexer.after 1 (Lexer.new "a\n    b\n    c\n".toList)).input_.data = 4 ∧
      (Lexer.after 1 (Lexer.new "a\n    b\n    c\n".toList)).current_indent_ = 0 ∧
      (Lexer.run 7 (Lexer.new "a\n    b\n    c\n".toList)).1
        = [.ok Token.Newline, .ok Token.Indent, .ok (Token.Id "b"), .ok Token.Newline,
           .ok Token.Indent, .ok (Token.Id "c"), .ok Token.Newline] ∧
      (Lexer.after 3 (Lexer.new "a\n    b\n    c\n".toList)).current_indent_ = 2 := by
  decide

/-! ## The claims about classes, methods and calls -/

theorem GetMethod_of_find_some (name_ : String) (methods_ : List Method)
    (parent_ : Option Class) (name : String) (m : Method)
    (h : methods_.find? (fun method => decide (method.name = name)) = some m) :
    (Class.mk name_ methods_ parent_).GetMethod name = some m := by
  cases parent_ <;> simp only [Class.GetMethod, h]

theorem GetMethod_of_find_none (name_ : String) (methods_ : List Method)
    (parent_ : Option Class) (name : String)
    (h : methods_.find? (fun method => decide (method.name = name)) = none) :
    (Class.mk name_ methods_ parent_).GetMethod name =
      (match parent_ with
       | some parent => parent.GetMethod name
       | none => none) := by
  cases parent_ <;> simp only [Class.GetMethod, h]

theorem find_first (methods_ : List Method) (name : String) (pre post : List Method)
    (m : Method) (hsplit : methods_ = pre ++ m :: post) (hm : m.name = name)
    (hpre : ∀ x ∈ pre, x.name ≠ name) :
    methods_.find? (fun method => decide (method.name = name)) = some m := by
  rw [List.find?_eq_some]
  refine ⟨by simpa using hm, pre, post, hsplit, ?_⟩
  intro a ha
  simpa using hpre a ha

theorem find_none (methods_ : List Method) (name : String)
    (h : ∀ x ∈ methods_, x.name ≠ name) :
    methods_.find? (fun method => decide (method.name = name)) = none := by
  rw [List.find?_eq_none]
  intro x hx
  simpa using h x hx

theorem GetMethod_none_iff (c : Class) (name : String) :
    c.GetMethod name = none ↔ ∀ k ∈ c.chain, ∀ x ∈ k.methods_, x.name ≠ name := by
  induction c using Class.rec
    (motive_2 := fun p => ∀ k, p = some k →
      (k.GetMethod name = none ↔ ∀ j ∈ k.chain, ∀ x ∈ j.methods_, x.name ≠ name)) with
  | mk name_ methods_ parent_ ih =>
    cases hf : methods_.find? (fun method => decide (method.name = name)) with
    | some m =>
      rw [GetMethod_of_find_some _ _ _ _ _ hf]
      have hm := (List.find?_eq_some.1 hf)
      have hmem : m ∈ methods_ := by
        obtain ⟨_, as, bs, h, _⟩ := hm
        rw [h]; simp
      have hname : m.name = name := by simpa using hm.1
      constructor
      · intro h; cases h
      · intro h
        exfalso
        have hc : Class.mk name_ methods_ parent_ ∈ (Class.mk name_ methods_ parent_).chain := by
          cases parent_ <;> simp [Class.chain]
        exact h _ hc m hmem hname
    | none =>
      rw [GetMethod_of_find_none _ _ _ _ hf]
      have hown : ∀ x ∈ methods_, x.name ≠ name := by
        intro x hx
        simpa using (List.find?_eq_none.1 hf) x hx
      cases parent_ with
      | none =>
        simp only [Class.chain, List.mem_singleton, forall_eq, Class.methods_, true_iff]
        exact hown
      | some p =>
        have ihp := ih p rfl
        simp only [Class.chain, List.mem_cons, forall_eq_or_imp, Class.methods_]
        rw [ihp]
        exact ⟨fun h => ⟨hown, h⟩, fun h => h.2⟩
  | none => rename_i k hk; cases hk
  | some c ih => rename_i k hk; cases hk; exact ih

/-- C13: `GetMethod(name)` returns the first method with that name of the
class's own list when there is one (whatever the ancestors define), otherwise
the result of `GetMethod(name)` on the parent, and null when there is no
parent; it returns null if and only if no class of the inheritance chain has a
method with that name. -/
theorem GetMethod_first_hit_along_chain (name_ : String) (methods_ : List Method)
    (parent_ : Option Class) (name : String) :
    (∀ pre m post, methods_ = pre ++ m :: post → m.name = name →
      (∀ x ∈ pre, x.name ≠ name) →
      (Class.mk name_ methods_ parent_).GetMethod name = some m) ∧
    ((∀ x ∈ methods_, x.name ≠ name) → ∀ parent, parent_ = some parent →
      (Class.mk name_ methods_ parent_).GetMethod name = parent.GetMethod name) ∧
    ((∀ x ∈ methods_, x.name ≠ name) → parent_ = none →
      (Class.mk name_ methods_ parent_).GetMethod name = none) ∧
    ((Class.mk name_ methods_ parent_).GetMethod name = none ↔
      ∀ k ∈ (Class.mk name_ methods_ parent_).chain, ∀ x ∈ k.methods_, x.name ≠ name) := by
  refine ⟨?_, ?_, ?_, GetMethod_none_iff _ _⟩
  · intro pre m post hsplit hm hpre
    exact GetMethod_of_find_some _ _ _ _ _ (find_first _ _ pre post m hsplit hm hpre)
  · intro h parent hp
    subst hp
    rw [GetMethod_of_find_none _ _ _ _ (find_none _ _ h)]
  · intro h hp
    subst hp
    rw [GetMethod_of_find_none _ _ _ _ (find_none _ _ h)]

/-- Witness of C13: the derived class and its parent both define `m`; the
derived class's method (body 1) is returned. -/
theorem GetMethod_first_hit_along_chain_witness :
    ([⟨"m", [], ⟨1⟩⟩] : List Method) = [] ++ ⟨"m", [], ⟨1⟩⟩ :: [] ∧
      (⟨"m", [], ⟨1⟩⟩ : Method).name = "m" ∧
      (∀ x ∈ ([] : List Method), x.name ≠ "m") ∧
      (Class.mk "D" [⟨"m", [], ⟨1⟩⟩] (some (Class.mk "B" [⟨"m", [], ⟨2⟩⟩] none))).GetMethod "m"
        = some ⟨"m", [], ⟨1⟩⟩ :=
  ⟨rfl, rfl, by decide,
    (GetMethod_first_hit_along_chain "D" [⟨"m", [], ⟨1⟩⟩]
      (some (Class.mk "B" [⟨"m", [], ⟨2⟩⟩] none)) "m").1 [] ⟨"m", [], ⟨1⟩⟩ [] rfl rfl
      (by decide)⟩

/-- C14: `HasMethod(name, argc)` is true if and only if `GetMethod(name)` on
the instance's class returns a method and that method has exactly `argc`
formal parameters; in particular, when the class's own first method called
`name` has another number of parameters, `HasMethod` is false whatever the
ancestors define. -/
theorem HasMethod_iff_GetMethod_arity (class_ : Class) (name : String) (argc : Nat) :
    (ClassInstance.HasMethod class_ name argc = true ↔
      ∃ m, class_.GetMethod name = some m ∧ m.formal_params.length = argc) ∧
    (∀ name_ methods_ parent_ pre m post, class_ = Class.mk name_ methods_ parent_ →
      methods_ = pre ++ m :: post → m.name = name → (∀ x ∈ pre, x.name ≠ name) →
      m.formal_params.length ≠ argc →
      ClassInstance.HasMethod class_ name argc = false) := by
  constructor
  · unfold ClassInstance.HasMethod
    cases class_.GetMethod name with
    | none => simp
    | some m => simp
  · intro name_ methods_ parent_ pre m post hc hsplit hm hpre hlen
    subst hc
    unfold ClassInstance.HasMethod
    rw [GetMethod_of_find_some _ _ _ _ _ (find_first _ _ pre post m hsplit hm hpre)]
    simpa using hlen

/-- Witness of C14: the derived class defines `f` with two parameters, its
parent defines `f` with one; `HasMethod("f", 1)` is false on the derived
class and true on the parent. -/
theorem HasMethod_iff_GetMethod_arity_witness :
    ClassInstance.HasMethod (Class.mk "B" [⟨"f", ["x"], ⟨2⟩⟩] none) "f" 1 = true ∧
      ClassInstance.HasMethod
        (Class.mk "D" [⟨"f", ["x", "y"], ⟨1⟩⟩] (some (Class.mk "B" [⟨"f", ["x"], ⟨2⟩⟩] none)))
        "f" 1 = false :=
  ⟨by decide,
    (HasMethod_iff_GetMethod_arity
      (Class.mk "D" [⟨"f", ["x", "y"], ⟨1⟩⟩] (some (Class.mk "B" [⟨"f", ["x"], ⟨2⟩⟩] none)))
      "f" 1).2 "D" [⟨"f", ["x", "y"], ⟨1⟩⟩] (some (Class.mk "B" [⟨"f", ["x"], ⟨2⟩⟩] none))
      [] ⟨"f", ["x", "y"], ⟨1⟩⟩ [] rfl rfl rfl (by decide) (by decide)⟩

theorem bindParams_eq_foldl (formal_params : List String) :
    ∀ (actual_args : List ObjectHolder) (cls : Closure),
      ClassInstance.bindParams cls formal_params actual_args
        = (formal_params.zip actual_args).foldl (fun cls pa => cls.assign pa.1 pa.2) cls := by
  induction formal_params with
  | nil => intro actual_args cls; cases actual_args <;> rfl
  | cons p ps ih =>
    intro actual_args cls
    cases actual_args with
    | nil => rfl
    | cons a as =>
      simp only [ClassInstance.bindParams, List.zip_cons_cons, List.foldl_cons]
      exact ih as _

/-- C15 as stated fails: class `K` has the method `m` without parameters, whose
body (body 2 of `exampleExecute`) is `return self.missing()`.  `HasMethod("m",
0)` is true, and `Call("m", {})` ends with the runtime error "Method not
found", thrown by the call inside the body: the error does not tell that
`HasMethod` is false. -/
theorem Call_Method_not_found_from_the_body :
    ClassInstance.HasMethod (Class.mk "K" [⟨"m", [], ⟨2⟩⟩] none) "m" 0 = true ∧
      ClassInstance.Call exampleExecute (Class.mk "K" [⟨"m", [], ⟨2⟩⟩] none) 0 "m" []
          State.initial
        = (.error (.runtime_error "Method not found"), State.initial) ∧
      ¬ ((ClassInstance.Call exampleExecute (Class.mk "K" [⟨"m", [], ⟨2⟩⟩] none) 0 "m" []
            State.initial).1 = .error (.runtime_error "Method not found")
          ↔ ClassInstance.HasMethod (Class.mk "K" [⟨"m", [], ⟨2⟩⟩] none) "m"
              ([] : List ObjectHolder).length = false) := by
  refine ⟨by decide, rfl, ?_⟩
  intro h
  have h2 := h.1 rfl
  revert h2
  decide

/-- C15, amended: `Call` throws the runtime error "Method not found", without
running any body and leaving the state as it is, when `HasMethod(method,
|actual_args|)` is false; otherwise it is one execution of the body of the
method `GetMethod(method)` on the closure obtained from the empty one by
binding `self` to a holder on the receiver and then each formal parameter to
its argument, in order, in the state of the call, and its outcome (result or
exception, and state) is the outcome of that body.  So `Call` ends with the
error "Method not found" if and only if `HasMethod` is false or the body
itself ends with that error. -/
theorem Call_binds_self_and_params (Execute : Evaluator) (class_ : Class) (address : Nat)
    (method : String) (actual_args : List ObjectHolder) (context : State) :
    (ClassInstance.HasMethod class_ method actual_args.length = false →
      ClassInstance.Call Execute class_ address method actual_args context
        = (.error (.runtime_error "Method not found"), context)) ∧
    (ClassInstance.HasMethod class_ method actual_args.length = true →
      ∃ m, class_.GetMethod method = some m ∧
        m.formal_params.length = actual_args.length ∧
        ClassInstance.Call Execute class_ address method actual_args context
          = Execute m.body
              (ClassInstance.callClosure (some (.ClassInstance class_ address))
                m.formal_params actual_args)
              context) ∧
    ((ClassInstance.Call Execute class_ address method actual_args context).1
          = .error (.runtime_error "Method not found")
        ↔ (ClassInstance.HasMethod class_ method actual_args.length = false ∨
            ∃ m, class_.GetMethod method = some m ∧
              (Execute m.body
                (ClassInstance.callClosure (some (.ClassInstance class_ address))
                  m.formal_params actual_args)
                context).1 = .error (.runtime_error "Method not found"))) := by
  have hfalse : ClassInstance.HasMethod class_ method actual_args.length = false →
      ClassInstance.Call Execute class_ address method actual_args context
        = (.error (.runtime_error "Method not found"), context) := by
    intro h
    simp [ClassInstance.Call, h]
  have htrue : ClassInstance.HasMethod class_ method actual_args.length = true →
      ∃ m, class_.GetMethod method = some m ∧
        m.formal_params.length = actual_args.length ∧
        ClassInstance.Call Execute class_ address method actual_args context
          = Execute m.body
              (ClassInstance.callClosure (some (.ClassInstance class_ address))
                m.formal_params actual_args)
              context := by
    intro h
    have h2 := h
    unfold ClassInstance.HasMethod at h2
    cases hg : class_.GetMethod method with
    | none => rw [hg] at h2; cases h2
    | some m =>
      rw [hg] at h2
      refine ⟨m, rfl, by simpa using h2, ?_⟩
      simp only [ClassInstance.Call, h, Bool.not_true, Bool.false_eq_true, if_false, hg,
        bindParams_eq_foldl, ClassInstance.callClosure]
  refine ⟨hfalse, htrue, ?_⟩
  constructor
  · intro hcall
    cases hh : ClassInstance.HasMethod class_ method actual_args.length with
    | false => exact Or.inl rfl
    | true =>
      obtain ⟨m, hg, _, hc⟩ := htrue hh
      rw [hc] at hcall
      exact Or.inr ⟨m, hg, hcall⟩
  · rintro (h | ⟨m, hg, hbody⟩)
    · rw [hfalse h]
    · cases hh : ClassInstance.HasMethod class_ method actual_args.length with
      | false => rw [hfalse hh]
      | true =>
        obtain ⟨m2, hg2, _, hc⟩ := htrue hh
        rw [hg] at hg2
        cases hg2
        rw [hc]
        exact hbody

/-- Witness of the amended C15: class `K` has `set(x)`.  With no argument the call throws
"Method not found"; with the argument 5 it runs the body on the closure that
binds `self` and `x`, and the evaluator used here, which returns what the
closure binds to `x`, yields 5. -/
theorem Call_binds_self_and_params_witness :
    ClassInstance.HasMethod (Class.mk "K" [⟨"set", ["x"], ⟨7⟩⟩] none) "set" 1 = true ∧
      ClassInstance.HasMethod (Class.mk "K" [⟨"set", ["x"], ⟨7⟩⟩] none) "set" 0 = false ∧
      ClassInstance.Call (fun _ cls ctx => (.ok ((cls.lookup "x").getD none), ctx))
          (Class.mk "K" [⟨"set", ["x"], ⟨7⟩⟩] none) 0 "set" [] State.initial
        = (.error (.runtime_error "Method not found"), State.initial) ∧
      ClassInstance.Call (fun _ cls ctx => (.ok ((cls.lookup "x").getD none), ctx))
          (Class.mk "K" [⟨"set", ["x"], ⟨7⟩⟩] none) 0 "set" [some (.Number 5)] State.initial
        = (.ok (some (.Number 5)), State.initial) ∧
      ∃ m, (Class.mk "K" [⟨"set", ["x"], ⟨7⟩⟩] none).GetMethod "set" = some m ∧
        m.formal_params.length = [some (Object.Number 5)].length ∧
        ClassInstance.Call (fun _ cls ctx => (.ok ((cls.lookup "x").getD none), ctx))
            (Class.mk "K" [⟨"set", ["x"], ⟨7⟩⟩] none) 0 "set" [some (.Number 5)] State.initial
          = (fun _ cls ctx => (.ok ((cls.lookup "x").getD none), ctx)) m.body
              (ClassInstance.callClosure
                (some (.ClassInstance (Class.mk "K" [⟨"set", ["x"], ⟨7⟩⟩] none) 0))
                m.formal_params [some (.Number 5)])
              State.initial :=
  ⟨by decide, by decide,
    (Call_binds_self_and_params (fun _ cls ctx => (.ok ((cls.lookup "x").getD none), ctx))
      (Class.mk "K" [⟨"set", ["x"], ⟨7⟩⟩] none) 0 "set" [] State.initial).1 (by decide),
    rfl,
    (Call_binds_self_and_params (fun _ cls ctx => (.ok ((cls.lookup "x").getD none), ctx))
      (Class.mk "K" [⟨"set", ["x"], ⟨7⟩⟩] none) 0 "set" [some (.Number 5)] State.initial).2.1
      (by decide)⟩

/-- What a body does to the fields of `self` is seen by the next call on the
same instance: `get` (body 1, `return self.flag`) returns `False` in the
initial state and `True` in the state that `mark` (body 0,
`self.flag = True; return False`) leaves. -/
theorem Call_sees_fields_set_by_an_earlier_call :
    (ClassInstance.Call exampleExecute
        (Class.mk "K" [⟨"mark", [], ⟨0⟩⟩, ⟨"get", [], ⟨1⟩⟩] none) 0 "get" [] State.initial).1
      = .ok (some (.Bool false)) ∧
    (ClassInstance.Call exampleExecute
        (Class.mk "K" [⟨"mark", [], ⟨0⟩⟩, ⟨"get", [], ⟨1⟩⟩] none) 0 "get" []
        (ClassInstance.Call exampleExecute
          (Class.mk "K" [⟨"mark", [], ⟨0⟩⟩, ⟨"get", [], ⟨1⟩⟩] none) 0 "mark" []
          State.initial).2).1
      = .ok (some (.Bool true)) :=
  ⟨rfl, rfl⟩

/-- C16, evaluated: the class defines `__str__` with one formal parameter.
`Print` finds it by name and calls it with no argument, and the call throws
"Method not found": nothing is printed.  For a class without `__str__` the
address is printed. -/
theorem Print_throws_when_str_has_parameters :
    ClassInstance.Print (fun _ _ ctx => (.ok (some (.String "s")), ctx))
        (fun _ os ctx => (.ok os, ctx))
        (Class.mk "K" [⟨"__str__", ["x"], ⟨0⟩⟩] none) 0 "0x1" "" State.initial
      = (.error (.runtime_error "Method not found"), State.initial) ∧
    ClassInstance.HasMethod (Class.mk "K" [⟨"__str__", ["x"], ⟨0⟩⟩] none) "__str__" 0 = false ∧
    ClassInstance.Print (fun _ _ ctx => (.ok (some (.String "s")), ctx))
        (fun _ os ctx => (.ok os, ctx))
        (Class.mk "K" [] none) 0 "0x1" "" State.initial
      = (.ok "0x1", State.initial) :=
  ⟨rfl, by decide, rfl⟩

/-- C17: `IsTrue` is false for an empty holder, `value != 0` for a `Number`,
"not empty" for a `String`, the payload for a `Bool`, and false for every
`Class` and every `ClassInstance`. -/
theorem IsTrue_cases :
    IsTrue none = false ∧
    (∀ v : Int, IsTrue (some (.Number v)) = decide (v ≠ 0)) ∧
    (∀ v : String, IsTrue (some (.String v)) = decide (v ≠ "")) ∧
    (∀ v : Bool, IsTrue (some (.Bool v)) = v) ∧
    (∀ cls : Class, IsTrue (some (.Class cls)) = false) ∧
    (∀ (cls : Class) (address : Nat), IsTrue (some (.ClassInstance cls address)) = false) := by
  refine ⟨rfl, fun _ => rfl, ?_, fun _ => rfl, fun _ => rfl, fun _ _ => rfl⟩
  intro v
  cases v with
  | mk d =>
    cases d with
    | nil => decide
    | cons a r =>
      have h : (String.mk (a :: r)) ≠ "" := by
        intro h
        have := congrArg String.data h
        simp at this
      simp [IsTrue, ObjectHolder.TryAsNumber, ObjectHolder.TryAsString, h]

/-! ## The claims about the derived comparisons -/

/-- C11 as stated fails: class `K` has `__lt__` with body 0 of
`exampleExecute` (`self.flag = True; return False`) and `__eq__` with body 1
(`return self.flag`).  On an instance of `K` and the number 1, in the initial
state, `Less` returns false and `Equal` returns false, both without error; yet
`Greater` returns false, not `!false && !false`, and `LessOrEqual` returns
true, not `false || false`: the `Equal` they call runs after `Less` has set
the field. -/
theorem derived_comparisons_after_an_effect :
    (Less exampleExecute
        (some (.ClassInstance
          (Class.mk "K" [⟨"__lt__", ["other"], ⟨0⟩⟩, ⟨"__eq__", ["other"], ⟨1⟩⟩] none) 0))
        (some (.Number 1)) State.initial).1 = .ok false ∧
      (Equal exampleExecute
        (some (.ClassInstance
          (Class.mk "K" [⟨"__lt__", ["other"], ⟨0⟩⟩, ⟨"__eq__", ["other"], ⟨1⟩⟩] none) 0))
        (some (.Number 1)) State.initial).1 = .ok false ∧
      (Greater exampleExecute
        (some (.ClassInstance
          (Class.mk "K" [⟨"__lt__", ["other"], ⟨0⟩⟩, ⟨"__eq__", ["other"], ⟨1⟩⟩] none) 0))
        (some (.Number 1)) State.initial).1 = .ok false ∧
      (LessOrEqual exampleExecute
        (some (.ClassInstance
          (Class.mk "K" [⟨"__lt__", ["other"], ⟨0⟩⟩, ⟨"__eq__", ["other"], ⟨1⟩⟩] none) 0))
        (some (.Number 1)) State.initial).1 = .ok true ∧
      (Greater exampleExecute
        (some (.ClassInstance
          (Class.mk "K" [⟨"__lt__", ["other"], ⟨0⟩⟩, ⟨"__eq__", ["other"], ⟨1⟩⟩] none) 0))
        (some (.Number 1)) State.initial).1 ≠ .ok (!false && !false) ∧
      (LessOrEqual exampleExecute
        (some (.ClassInstance
          (Class.mk "K" [⟨"__lt__", ["other"], ⟨0⟩⟩, ⟨"__eq__", ["other"], ⟨1⟩⟩] none) 0))
        (some (.Number 1)) State.initial).1 ≠ .ok (false || false) := by
  decide

/-- C11, amended: the four derived comparisons are computed from `Less` and
`Equal` as the source writes them, from left to right.  `NotEqual` is the
negation of `Equal` and throws exactly when `Equal` throws.  When `Less`
returns `lt` and `Equal`, called in the state that `Less` leaves, returns
`eq`, then `Greater` is `!lt && !eq`, `LessOrEqual` is `lt || eq` and
`GreaterOrEqual` is `!lt` (the state is the one the last executed comparison
leaves).  When `Less` returns true, `Equal` is not called at all.  Where
`Less` leaves the state as it was, as on primitives, `Equal` is the call in
the state of the caller. -/
theorem derived_comparisons (Execute : Evaluator) (lhs rhs : ObjectHolder) (context : State) :
    (∀ eq c, Equal Execute lhs rhs context = (.ok eq, c) →
      NotEqual Execute lhs rhs context = (.ok (!eq), c)) ∧
    (∀ e c, NotEqual Execute lhs rhs context = (.error e, c)
      ↔ Equal Execute lhs rhs context = (.error e, c)) ∧
    (∀ lt eq c1 c2, Less Execute lhs rhs context = (.ok lt, c1) →
      Equal Execute lhs rhs c1 = (.ok eq, c2) →
      Greater Execute lhs rhs context = (.ok (!lt && !eq), if lt then c1 else c2) ∧
      LessOrEqual Execute lhs rhs context = (.ok (lt || eq), if lt then c1 else c2) ∧
      GreaterOrEqual Execute lhs rhs context = (.ok (!lt), c1)) ∧
    (∀ c1, Less Execute lhs rhs context = (.ok true, c1) →
      Greater Execute lhs rhs context = (.ok false, c1) ∧
      LessOrEqual Execute lhs rhs context = (.ok true, c1) ∧
      GreaterOrEqual Execute lhs rhs context = (.ok false, c1)) := by
  refine ⟨?_, ?_, ?_, ?_⟩
  · intro eq c h
    simp only [NotEqual, h]
  · intro e c
    unfold NotEqual
    rcases hE : Equal Execute lhs rhs context with ⟨_ | _, _⟩ <;> simp
  · intro lt eq c1 c2 hl he
    cases lt <;> simp [Greater, LessOrEqual, GreaterOrEqual, hl, he]
  · intro c1 hl
    simp [Greater, LessOrEqual, GreaterOrEqual, hl]

/-- Witness of the amended C11 on the numbers 1 and 2: `Less` is true and `Equal` is
false, so `Greater` is false, `LessOrEqual` is true and `GreaterOrEqual` is
false. -/
theorem derived_comparisons_witness :
    Less (fun _ _ ctx => (.ok none, ctx)) (some (.Number 1)) (some (.Number 2)) State.initial
        = (.ok true, State.initial) ∧
      Equal (fun _ _ ctx => (.ok none, ctx)) (some (.Number 1)) (some (.Number 2)) State.initial
        = (.ok false, State.initial) ∧
      (Greater (fun _ _ ctx => (.ok none, ctx)) (some (.Number 1)) (some (.Number 2)) State.initial
          = (.ok false, State.initial) ∧
        LessOrEqual (fun _ _ ctx => (.ok none, ctx)) (some (.Number 1)) (some (.Number 2)) State.initial
          = (.ok true, State.initial) ∧
        GreaterOrEqual (fun _ _ ctx => (.ok none, ctx)) (some (.Number 1)) (some (.Number 2))
            State.initial
          = (.ok false, State.initial)) :=
  ⟨rfl, rfl,
    (derived_comparisons (fun _ _ ctx => (.ok none, ctx)) (some (.Number 1))
      (some (.Number 2)) State.initial).2.2.1 true false State.initial State.initial rfl rfl⟩

/-- C12 as stated fails: on two empty holders `GreaterOrEqual` does not return
true; the error of `Less` propagates. -/
theorem GreaterOrEqual_None_None_not_true :
    ¬ ((GreaterOrEqual (fun _ _ ctx => (.ok none, ctx)) none none State.initial).1 = .ok true) := by
  decide

/-- C12, amended: on two empty holders `GreaterOrEqual` throws the runtime
error "Cannot compare objects for less" of `Less`, which it does not catch,
and leaves the state as it is. -/
theorem GreaterOrEqual_None_None_throws (Execute : Evaluator) (context : State) :
    GreaterOrEqual Execute none none context
      = (.error (.runtime_error "Cannot compare objects for less"), context) := rfl

/-! ## The frame of a `ReadToken` call, in any state -/

theorem keywordToken_ne_Newline (k : String) : Lexer.keywordToken k ≠ Token.Newline := by
  unfold Lexer.keywordToken
  repeat' (first | exact (fun h => Token.noConfusion h) | apply ite_token_ne)

theorem doubleToken_ne_Newline (c : Char) : Lexer.doubleToken c ≠ Token.Newline := by
  unfold Lexer.doubleToken
  split_ifs <;> (intro h; cases h)

theorem Frame_pushed {l l2 : Lexer} (t : Token) (h1 : t ≠ Token.Eof)
    (h2 : l2.tokens_ = l.tokens_ ++ [t]) (h3 : t = Token.Newline → l.tokens_ ≠ []) :
    l.Frame (.ok true) l2 :=
  ⟨fun _ => ⟨t, h1, h2, h3⟩, fun h => absurd rfl h, fun h => by cases h⟩

theorem Frame_congr {l1 l l2 : Lexer} {res : Except LexerError Bool} (h : l1.Frame res l2)
    (ht : l1.tokens_ = l.tokens_) (hi : l1.current_indent_ = l.current_indent_) :
    l.Frame res l2 := by
  unfold Lexer.Frame at h ⊢
  rw [← ht, ← hi]
  exact h

theorem CalculateIndent_frame (l : Lexer) :
    (l.CalculateIndent.1 = .ok true →
        l.CalculateIndent.2.tokens_ = l.tokens_ ++ [Token.Indent]
          ∨ l.CalculateIndent.2.tokens_ = l.tokens_ ++ [Token.Dedent]) ∧
      (l.CalculateIndent.1 ≠ .ok true →
        l.CalculateIndent.2.tokens_ = l.tokens_
          ∧ l.CalculateIndent.2.current_indent_ = l.current_indent_) := by
  simp only [Lexer.CalculateIndent]
  split_ifs <;> simp [Lexer.push]

theorem AddKeywordOrId_tokens (l : Lexer) :
    ∃ k, l.AddKeywordOrId.tokens_ = l.tokens_ ++ [Lexer.keywordToken k] :=
  ⟨_, rfl⟩

theorem AddNumber_tokens (l : Lexer) :
    ∃ n, l.AddNumber.tokens_ = l.tokens_ ++ [Token.Number n] :=
  ⟨_, rfl⟩

theorem AddString_tokens (l : Lexer) :
    ∃ str, l.AddString.tokens_ = l.tokens_ ++ [Token.String str] :=
  ⟨_, rfl⟩

/-- The dispatch of `ReadToken` has the frame property in every state, when
the recursive call has it. -/
theorem dispatch_frame (again : Lexer → Option (Except LexerError Bool × Lexer))
    (hag : ∀ l res l2, again l = some (res, l2) → l.Frame res l2)
    (l1 : Lexer) (res : Except LexerError Bool) (l2 : Lexer)
    (h : Lexer.ReadToken.dispatch again l1 = some (res, l2)) : l1.Frame res l2 := by
  unfold Lexer.ReadToken.dispatch at h
  simp only at h
  split_ifs at h with h1 h2 h3 h4 h5 h6
  · cases h
    refine Frame_pushed Token.Newline (by simp) (by simp [Lexer.AddNewline, Lexer.push]) ?_
    intro _ he
    simp [he] at h1
  · cases h
    obtain ⟨k, hk⟩ := AddKeywordOrId_tokens { l1 with input_ := l1.input_.peek.2 }
    exact Frame_pushed _ (keywordToken_ne k).2.2 hk
      (fun he => absurd he (keywordToken_ne_Newline k))
  · cases h
    obtain ⟨n, hn⟩ := AddNumber_tokens { l1 with input_ := l1.input_.peek.2 }
    exact Frame_pushed (Token.Number n) (by simp) hn (fun he => by cases he)
  · cases h
    obtain ⟨str, hstr⟩ := AddString_tokens { l1 with input_ := l1.input_.peek.2 }
    exact Frame_pushed (Token.String str) (by simp) hstr (fun he => by cases he)
  · exact Frame_congr (hag _ _ _ h) (by simp [Lexer.RemoveSpaces]) (by simp [Lexer.RemoveSpaces])
  · cases h
    have hp : l1.input_.peek.1 ≠ none := by
      intro hn
      rw [hn] at h6
      revert h6
      decide
    obtain ⟨c, d, hcd⟩ := good_cons_of_peek hp
    rw [hcd, IStream.peek_of_good] at h6
    simp only [toChar] at h6
    have heq := AddDoubleChar_eq { l1 with input_ := l1.input_.peek.2 } c d h6
      (by rw [hcd, IStream.peek_of_good])
    rw [heq]
    cases hdw : d.dropWhile isspace with
    | nil => exact Frame_pushed (Token.Char c) (by simp) rfl (fun he => by cases he)
    | cons x r =>
      by_cases hx : x = '='
      · simp only [hx, if_true]
        exact Frame_pushed _ (doubleToken_ne c).2.2 rfl
          (fun he => absurd he (doubleToken_ne_Newline c))
      · simp only [hx, if_false]
        exact Frame_pushed (Token.Char c) (by simp) rfl (fun he => by cases he)
  · cases h
    exact Frame_pushed (Token.Char (toChar l1.input_.peek.1)) (by simp) rfl
      (fun he => by cases he)

/-- Every `ReadToken` call that returns has the frame property, whatever the
state it is made in. -/
theorem go_frame : ∀ (fuel : Nat) (l : Lexer) (res : Except LexerError Bool) (l2 : Lexer),
    Lexer.ReadToken.go fuel l = some (res, l2) → l.Frame res l2 := by
  intro fuel
  induction fuel with
  | zero => intro l res l2 h; cases h
  | succ fuel ih =>
    intro l res l2 h
    rw [Lexer.ReadToken.go] at h
    rcases hp : l.input_.peek with ⟨_ | c, s0⟩
    · rw [hp] at h
      cases h
      have hn : l.input_.peek.1 = none := by rw [hp]
      have hg := IStream.peek_snd_not_good hn
      rw [hp] at hg
      exact ⟨fun hh => (nomatch hh), fun _ => ⟨rfl, rfl⟩, fun _ => hg⟩
    · rw [hp] at h
      simp only at h
      have hd := dispatch_frame (Lexer.ReadToken.go fuel) ih
      by_cases hls : (Lexer.CurrentToken { l with input_ := s0 } = Token.Newline
          ∨ Lexer.CurrentToken { l with input_ := s0 } = Token.Dedent)
      · rw [if_pos hls] at h
        have hci := CalculateIndent_frame { l with input_ := s0 }
        rcases hr : Lexer.CalculateIndent { l with input_ := s0 } with ⟨_ | b, l1⟩
        · rw [hr] at h hci
          cases h
          exact ⟨fun hh => (nomatch hh), fun _ => hci.2 (by simp), fun hh => (nomatch hh)⟩
        · rw [hr] at h hci
          cases b with
          | true =>
            cases h
            rcases hci.1 rfl with ht | ht
            · exact Frame_pushed Token.Indent (by simp) ht (fun he => by cases he)
            · exact Frame_pushed Token.Dedent (by simp) ht (fun he => by cases he)
          | false =>
            have h2 := hci.2 (by simp)
            exact Frame_congr (hd _ _ _ h) h2.1 h2.2
      · rw [if_neg hls] at h
        exact Frame_congr (hd _ _ _ h) rfl rfl

theorem ReadToken_frame (l : Lexer) : l.Frame l.ReadToken.1 l.ReadToken.2 :=
  go_frame 2 l _ _ (ReadToken_go_eq l 2 (le_refl _))

/-! ## The claims about line feeds and the end of the input -/

/-- C21, evaluated: on `"a \n  b\n"` the first line holds the token `Id "a"`
and is followed by one space and a line feed.  The call after construction
finds the space, and `RemoveSpaces` extracts the space, the line feed and the
two spaces of the next line: the calls return `Id "b"`, `Newline`, `Eof`, with
no `Newline` after `Id "a"`, no `Indent` before `Id "b"`, and `current_indent_`
still 0.  Without the space before the line feed (`"a\n  b\n"`) the calls
return `Newline`, `Indent`, `Id "b"`, `Newline`, `Eof`. -/
theorem RemoveSpaces_consumes_line_feed :
    (Lexer.new "a \n  b\n".toList).tokens_ = [Token.Id "a"] ∧
      (Lexer.new "a \n  b\n".toList).input_.data = " \n  b\n".toList ∧
      (Lexer.new "a \n  b\n".toList).RemoveSpaces.input_.data = "b\n".toList ∧
      (Lexer.run 3 (Lexer.new "a \n  b\n".toList)).1
        = [.ok (Token.Id "b"), .ok Token.Newline, .ok Token.Eof] ∧
      (Lexer.after 3 (Lexer.new "a \n  b\n".toList)).tokens_
        = [Token.Id "a", Token.Id "b", Token.Newline] ∧
      (Lexer.after 3 (Lexer.new "a \n  b\n".toList)).current_indent_ = 0 ∧
      (Lexer.run 5 (Lexer.new "a\n  b\n".toList)).1
        = [.ok Token.Newline, .ok Token.Indent, .ok (Token.Id "b"), .ok Token.Newline,
           .ok Token.Eof] := by
  decide

/-- C22, evaluated: on the input `"a\n\n"` the second line is empty, yet the
two calls after construction both return `Newline`, and the history holds a
`Newline` that directly follows a `Newline`.  On `"a\n  b\n\n  c\n"` the empty
third line closes the block and opens it again: after `Id "b"` the calls
return `Newline`, `Dedent`, `Newline`, `Indent`, then `Id "c"`.  Only before
the first token are empty lines dropped (`"\n\na\n"`). -/
theorem Newline_for_an_empty_line :
    (Lexer.run 3 (Lexer.new "a\n\n".toList)).1
        = [.ok Token.Newline, .ok Token.Newline, .ok Token.Eof] ∧
      ¬ (∀ i : Nat,
          (Lexer.after 2 (Lexer.new "a\n\n".toList)).tokens_[i]? = some Token.Newline →
          0 < i ∧ (Lexer.after 2 (Lexer.new "a\n\n".toList)).tokens_[i - 1]?
            ≠ some Token.Newline) ∧
      (Lexer.run 10 (Lexer.new "a\n  b\n\n  c\n".toList)).1
        = [.ok Token.Newline, .ok Token.Indent, .ok (Token.Id "b"), .ok Token.Newline,
           .ok Token.Dedent, .ok Token.Newline, .ok Token.Indent, .ok (Token.Id "c"),
           .ok Token.Newline, .ok Token.Eof] ∧
      (Lexer.new "\n\na\n".toList).tokens_ = [Token.Id "a"] ∧
      (Lexer.run 2 (Lexer.new "\n\na\n".toList)).1 = [.ok Token.Newline, .ok Token.Eof] := by
  refine ⟨by decide, ?_, by decide, by decide, by decide⟩
  intro h
  have h2 := h 2 (by decide)
  revert h2
  decide

/-- In any state, `NextToken` returns `Eof` only when `ReadToken` returned
false: a pushed token is never `Eof`. -/
theorem ReadToken_of_NextToken_Eof (l : Lexer) (h : l.NextToken.1 = .ok Token.Eof) :
    l.ReadToken.1 = .ok false := by
  have hf := ReadToken_frame l
  rw [NextToken_fst] at h
  rcases hr : l.ReadToken.1 with e | b
  · rw [hr] at h
    cases h
  · cases b with
    | false => rfl
    | true =>
      rw [hr] at h hf
      obtain ⟨t, ht, hts, _⟩ := hf.1 rfl
      have hb := back_concat l.ReadToken.2 _ _ hts
      simp only [if_true] at h
      rw [hb] at h
      exact absurd (Except.ok.inj h) ht

/-- Once the stream is not good, every further `NextToken` call returns `Eof`
and changes neither the token history nor `current_indent_`. -/
theorem after_of_not_good (l : Lexer) (hg : l.input_.good = false) (n : Nat) :
    (Lexer.after n l).input_.good = false ∧ (Lexer.after n l).tokens_ = l.tokens_ ∧
      (Lexer.after n l).current_indent_ = l.current_indent_ := by
  induction n with
  | zero => exact ⟨hg, rfl, rfl⟩
  | succ n ih =>
    have h1 := NextToken_of_not_good _ ih.1
    have h2 := ReadToken_frame (Lexer.after n l)
    rw [ReadToken_of_NextToken_Eof _ h1.1] at h2
    have h3 := h2.2.1 (by simp)
    rw [after_succ]
    refine ⟨h1.2, ?_, ?_⟩
    · rw [NextToken_snd, h3.1, ih.2.1]
    · rw [NextToken_snd, h3.2, ih.2.2]

/-- C23: in every lexer state, a `NextToken` call that returns `Eof` leaves
the token history and `current_indent_` as they were, and so does every later
call, each of which returns `Eof` again: no `Dedent` is ever added at the end
of the input.  When that state is reachable on some input and has
`current_indent_ > 0` (the input ends inside an indented block), the final
token history holds more `Indent` than `Dedent` tokens. -/
theorem NextToken_Eof_leaves_history_and_indent (l : Lexer)
    (h : l.NextToken.1 = .ok Token.Eof) :
    l.NextToken.2.tokens_ = l.tokens_ ∧
    l.NextToken.2.current_indent_ = l.current_indent_ ∧
    (∀ n, (Lexer.after n l.NextToken.2).NextToken.1 = .ok Token.Eof ∧
      (Lexer.after n l.NextToken.2).tokens_ = l.tokens_ ∧
      (Lexer.after n l.NextToken.2).current_indent_ = l.current_indent_) ∧
    (l.Reachable → 0 < l.current_indent_ → ∀ n,
      (Lexer.after n l.NextToken.2).tokens_.count Token.Dedent
        < (Lexer.after n l.NextToken.2).tokens_.count Token.Indent) := by
  have hr := ReadToken_of_NextToken_Eof l h
  have hf := ReadToken_frame l
  rw [hr] at hf
  have hsame := hf.2.1 (by simp)
  have hg := hf.2.2 rfl
  rw [← NextToken_snd] at hsame hg
  have hstable := after_of_not_good l.NextToken.2 hg
  have hall : ∀ n, (Lexer.after n l.NextToken.2).tokens_ = l.tokens_ ∧
      (Lexer.after n l.NextToken.2).current_indent_ = l.current_indent_ :=
    fun n => ⟨(hstable n).2.1.trans hsame.1, (hstable n).2.2.trans hsame.2⟩
  refine ⟨hsame.1, hsame.2, fun n => ⟨?_, hall n⟩, ?_⟩
  · exact (NextToken_of_not_good _ (hstable n).1).1
  · intro hreach hpos n
    have hlev := hreach.invariants.2.1
    rw [(hall n).1]
    unfold Lexer.level at hlev
    omega

/-- Witness of C23: the input `"a\n  b\n"` ends inside an indented block.
After four further calls (`Newline`, `Indent`, `Id "b"`, `Newline`) the state
has `current_indent_ = 2`, and the fifth call returns `Eof`: the history keeps
its one `Indent` and gets no `Dedent`. -/
theorem NextToken_Eof_leaves_history_and_indent_witness :
    (Lexer.after 4 (Lexer.new "a\n  b\n".toList)).NextToken.1 = .ok Token.Eof ∧
      (Lexer.after 4 (Lexer.new "a\n  b\n".toList)).Reachable ∧
      (Lexer.after 4 (Lexer.new "a\n  b\n".toList)).current_indent_ = 2 ∧
      (Lexer.after 4 (Lexer.new "a\n  b\n".toList)).NextToken.2.tokens_
        = [Token.Id "a", Token.Newline, Token.Indent, Token.Id "b", Token.Newline] ∧
      ((Lexer.after 4 (Lexer.new "a\n  b\n".toList)).NextToken.2.tokens_
          = (Lexer.after 4 (Lexer.new "a\n  b\n".toList)).tokens_ ∧
        (Lexer.after 4 (Lexer.new "a\n  b\n".toList)).NextToken.2.current_indent_
          = (Lexer.after 4 (Lexer.new "a\n  b\n".toList)).current_indent_ ∧
        (Lexer.after 0 (Lexer.after 4 (Lexer.new "a\n  b\n".toList)).NextToken.2).tokens_.count
            Token.Dedent
          < (Lexer.after 0
              (Lexer.after 4 (Lexer.new "a\n  b\n".toList)).NextToken.2).tokens_.count
            Token.Indent) :=
  ⟨by decide, Reachable_after 4 (.init _), by decide, by decide,
    (NextToken_Eof_leaves_history_and_indent _ (by decide)).1,
    (NextToken_Eof_leaves_history_and_indent _ (by decide)).2.1,
    (NextToken_Eof_leaves_history_and_indent _ (by decide)).2.2.2
      (Reachable_after 4 (.init _)) (by decide) 0⟩

/-! ## The claim about the derived comparisons of same-type primitives -/

/-- The comparison `std::string::compare` with its arguments exchanged is
negative exactly when the comparison is neither negative nor between equal
byte strings. -/
theorem stringCompare_flip (a : List Char) :
    ∀ b : List Char, stringCompare b a < 0 ↔ (¬ stringCompare a b < 0 ∧ a ≠ b) := by
  induction a with
  | nil =>
    intro b
    cases b with
    | nil => simp [stringCompare]
    | cons y ys => simp [stringCompare]
  | cons x xs ih =>
    intro b
    cases b with
    | nil => simp [stringCompare]
    | cons y ys =>
      by_cases h1 : x < y
      · have h2 : ¬ y < x := not_lt.2 (le_of_lt h1)
        simp [stringCompare, h1, h2]
      · by_cases h2 : y < x
        · have hne : x ≠ y := fun h => by subst h; exact lt_irrefl _ h2
          simp [stringCompare, h1, h2, hne]
        · have hxy : x = y := le_antisymm (not_lt.1 h2) (not_lt.1 h1)
          subst hxy
          simp only [stringCompare, if_neg h1, ih ys]
          simp

/-- When `Less` and `Equal` return on both orders of two holders, without
touching the state, and exactly one of "less", "equal", "greater" holds,
then `Greater` and `GreaterOrEqual` are `Less` and `LessOrEqual` with the
arguments exchanged. -/
theorem flipped_of_trichotomy (Execute : Evaluator) (a b : ObjectHolder) (context : State)
    (lt eq gt : Bool) (hl : Less Execute a b context = (.ok lt, context))
    (he : Equal Execute a b context = (.ok eq, context))
    (hg : Less Execute b a context = (.ok gt, context))
    (he2 : Equal Execute b a context = (.ok eq, context))
    (ht : (lt = true ∧ eq = false ∧ gt = false) ∨ (lt = false ∧ eq = true ∧ gt = false)
      ∨ (lt = false ∧ eq = false ∧ gt = true)) :
    Greater Execute a b context = Less Execute b a context ∧
    GreaterOrEqual Execute a b context = LessOrEqual Execute b a context ∧
    ∃ lt eq gt : Bool, Less Execute a b context = (.ok lt, context) ∧
      Equal Execute a b context = (.ok eq, context) ∧
      Less Execute b a context = (.ok gt, context) ∧
      ((lt = true ∧ eq = false ∧ gt = false) ∨ (lt = false ∧ eq = true ∧ gt = false)
        ∨ (lt = false ∧ eq = false ∧ gt = true)) := by
  refine ⟨?_, ?_, lt, eq, gt, hl, he, hg, ht⟩
  · rcases ht with ⟨rfl, rfl, rfl⟩ | ⟨rfl, rfl, rfl⟩ | ⟨rfl, rfl, rfl⟩ <;>
      simp [Greater, hl, he, hg]
  · rcases ht with ⟨rfl, rfl, rfl⟩ | ⟨rfl, rfl, rfl⟩ | ⟨rfl, rfl, rfl⟩ <;>
      simp [GreaterOrEqual, LessOrEqual, hl, hg, he2]

/-- C24: for two holders that are both `Number`, both `String` or both `Bool`,
`Greater(a, b)` is `Less(b, a)` and `GreaterOrEqual(a, b)` is
`LessOrEqual(b, a)` (same result, same state); `Less(a, b)`, `Equal(a, b)`
and `Less(b, a)` all return, and exactly one of them is true. -/
theorem Greater_is_flipped_Less (Execute : Evaluator) (a b : Object) (context : State)
    (h : (∃ x y, a = .Number x ∧ b = .Number y) ∨ (∃ x y, a = .String x ∧ b = .String y)
      ∨ (∃ x y, a = .Bool x ∧ b = .Bool y)) :
    Greater Execute (some a) (some b) context = Less Execute (some b) (some a) context ∧
    GreaterOrEqual Execute (some a) (some b) context
      = LessOrEqual Execute (some b) (some a) context ∧
    ∃ lt eq gt : Bool, Less Execute (some a) (some b) context = (.ok lt, context) ∧
      Equal Execute (some a) (some b) context = (.ok eq, context) ∧
      Less Execute (some b) (some a) context = (.ok gt, context) ∧
      ((lt = true ∧ eq = false ∧ gt = false) ∨ (lt = false ∧ eq = true ∧ gt = false)
        ∨ (lt = false ∧ eq = false ∧ gt = true)) := by
  rcases h with ⟨x, y, rfl, rfl⟩ | ⟨x, y, rfl, rfl⟩ | ⟨x, y, rfl, rfl⟩
  · refine flipped_of_trichotomy Execute _ _ context (decide (x < y)) (decide (x = y))
      (decide (y < x)) rfl rfl rfl ?_ ?_
    · simp only [Equal, ObjectHolder.TryAsNumber]
      rw [show decide (y = x) = decide (x = y) from decide_eq_decide.2 eq_comm]
    · rcases lt_trichotomy x y with h | h | h
      · exact Or.inl ⟨by simp [h], by simp; omega, by simp; omega⟩
      · exact Or.inr (Or.inl ⟨by simp; omega, by simp [h], by simp; omega⟩)
      · exact Or.inr (Or.inr ⟨by simp; omega, by simp; omega, by simp [h]⟩)
  · refine flipped_of_trichotomy Execute _ _ context
      (decide (stringCompare x.data y.data < 0)) (decide (x = y))
      (decide (stringCompare y.data x.data < 0)) rfl rfl rfl ?_ ?_
    · simp only [Equal, ObjectHolder.TryAsNumber, ObjectHolder.TryAsString]
      rw [show decide (y = x) = decide (x = y) from decide_eq_decide.2 eq_comm]
    · have hf := stringCompare_flip x.data y.data
      have hd : x = y ↔ x.data = y.data := String.ext_iff
      by_cases h1 : stringCompare x.data y.data < 0
      · have h2 : ¬ stringCompare y.data x.data < 0 := fun h => (hf.1 h).1 h1
        have h3 : x ≠ y := by
          intro h
          subst h
          exact h2 h1
        exact Or.inl ⟨by simp [h1], by simp [h3], by simpa using h2⟩
      · by_cases h3 : x = y
        · subst h3
          exact Or.inr (Or.inl ⟨by simpa using h1, by simp, by simpa using h1⟩)
        · have h2 : stringCompare y.data x.data < 0 := hf.2 ⟨h1, fun h => h3 (hd.2 h)⟩
          exact Or.inr (Or.inr ⟨by simpa using h1, by simp [h3], by simp [h2]⟩)
  · refine flipped_of_trichotomy Execute _ _ context (decide (x < y)) (decide (x = y))
      (decide (y < x)) rfl rfl rfl ?_ ?_
    · cases x <;> cases y <;> rfl
    · cases x <;> cases y <;> decide
/-- Witness of C24 on the strings `"b"` and `"a"`: `Greater("b", "a")` and
`Less("a", "b")` are both true. -/
theorem Greater_is_flipped_Less_witness :
    ((∃ x y, Object.String "b" = Object.Number x ∧ Object.String "a" = Object.Number y)
        ∨ (∃ x y, Object.String "b" = Object.String x ∧ Object.String "a" = Object.String y)
        ∨ (∃ x y, Object.String "b" = Object.Bool x ∧ Object.String "a" = Object.Bool y)) ∧
      Less (fun _ _ ctx => (.ok none, ctx)) (some (.String "a")) (some (.String "b")) State.initial
        = (.ok true, State.initial) ∧
      (Greater (fun _ _ ctx => (.ok none, ctx)) (some (.String "b")) (some (.String "a")) State.initial
          = Less (fun _ _ ctx => (.ok none, ctx)) (some (.String "a")) (some (.String "b")) State.initial ∧
        GreaterOrEqual (fun _ _ ctx => (.ok none, ctx)) (some (.String "b"))
            (some (.String "a")) State.initial
          = LessOrEqual (fun _ _ ctx => (.ok none, ctx)) (some (.String "a"))
            (some (.String "b")) State.initial) :=
  ⟨Or.inr (Or.inl ⟨"b", "a", rfl, rfl⟩), rfl,
    (Greater_is_flipped_Less (fun _ _ ctx => (.ok none, ctx)) (.String "b") (.String "a")
      State.initial (Or.inr (Or.inl ⟨"b", "a", rfl, rfl⟩))).1,
    (Greater_is_flipped_Less (fun _ _ ctx => (.ok none, ctx)) (.String "b") (.String "a")
      State.initial (Or.inr (Or.inl ⟨"b", "a", rfl, rfl⟩))).2.1⟩

end Mython
